import Mathlib

/-!
# Swiftshare: peer discovery and point-to-point file transfer

A shallow embedding of `main.go` and `discovery.go`, and the properties of the
transfer protocol checked against it.

Go strings and byte slices are modelled as lists of bytes. Calls into the
operating system and the network (open, listen, accept, read, write) are
modelled by explicit outcome scripts handed to the embedded functions, every
call that the code checks being able to fail, and their observable effects by
event traces. The program builds for Unix and for Windows: the functions of
`path/filepath` it calls are a parameter of the send and the receive path, and
the ones of a Unix build are defined here.
-/

namespace Swiftshare

/-! ## Bytes and strings -/

/-- A Go `string` or `[]byte`: a finite sequence of bytes. -/
abbrev Bytes := List UInt8

/-- The bytes of an ASCII literal. -/
def ascii (s : String) : Bytes := s.toList.map (fun c => UInt8.ofNat c.toNat)

/-- The byte `|`, the metadata separator. -/
def PIPE : UInt8 := 124

/-- The byte `/`, `filepath.Separator` on Unix. -/
def SLASH : UInt8 := 47

/-- The byte `.`. -/
def DOT : UInt8 := 46

/-- Go `strings.Split(s, sep)` for a one-byte separator: the runs of `s`
between successive occurrences of `sep`, in order; the result has one more
element than `s` has separators. -/
def Split (sep : UInt8) : Bytes → List Bytes
  | [] => [[]]
  | b :: rest =>
    if b = sep then [] :: Split sep rest
    else
      match Split sep rest with
      | [] => [[b]]
      | p :: ps => (b :: p) :: ps

/-- Go `strings.Join(elems, sep)` for a one-byte separator. -/
def strJoin (sep : UInt8) : List Bytes → Bytes
  | [] => []
  | [a] => a
  | a :: b :: rest => a ++ sep :: strJoin sep (b :: rest)

/-! ## Decimal formatting and `strconv.ParseInt` -/

/-- The ASCII digit for `d` (`0` is byte 48). -/
def digitByte (d : Nat) : UInt8 := UInt8.ofNat (48 + d)

/-- Decimal digits of `n`, least significant first, as the loop of
`strconv.formatBits` emits them: `u % 10` while `u >= 10`, then `u`. -/
def digitsRev : Nat → Nat → List Nat
  | 0, _ => []
  | fuel + 1, n => if n < 10 then [n] else (n % 10) :: digitsRev fuel (n / 10)

/-- Decimal text of an unsigned number. -/
def formatUint (n : Nat) : Bytes := ((digitsRev (n + 1) n).reverse).map digitByte

/-- The verb `%d` of `fmt.Sprintf` on an integer: a minus sign for negative
numbers, then the decimal digits of the magnitude. -/
def formatInt (i : Int) : Bytes :=
  if i < 0 then 45 :: formatUint i.natAbs else formatUint i.natAbs

/-- The two error kinds of `strconv.NumError`. -/
inductive NumError where
  | ErrSyntax
  | ErrRange
  deriving DecidableEq, Repr

/-- Conversion of an integer to `int64` (two's complement wrap-around). -/
def wrap64 (x : Int) : Int := (x + 2 ^ 63) % 2 ^ 64 - 2 ^ 63

/-- The digit loop of `strconv.ParseUint(s, 10, 64)`. A byte outside `0`..`9`
is a syntax error (letters denote digits of value at least 10, which base 10
rejects). `n >= cutoff` means `n * 10` overflows; the sum is computed in
`uint64`. -/
def parseUintLoop : Bytes → Nat → Nat × Option NumError
  | [], n => (n, none)
  | c :: cs, n =>
    if 48 ≤ c.toNat ∧ c.toNat ≤ 57 then
      let d := c.toNat - 48
      if n ≥ (2 ^ 64 - 1) / 10 + 1 then (2 ^ 64 - 1, some NumError.ErrRange)
      else
        let m := n * 10
        let n1 := (m + d) % 2 ^ 64
        if n1 < m ∨ n1 > 2 ^ 64 - 1 then (2 ^ 64 - 1, some NumError.ErrRange)
        else parseUintLoop cs n1
    else (0, some NumError.ErrSyntax)

/-- Go `strconv.ParseUint(s, 10, 64)`: value and error. -/
def ParseUint (s : Bytes) : Nat × Option NumError :=
  if s = [] then (0, some NumError.ErrSyntax) else parseUintLoop s 0

/-- The range check at the end of `strconv.ParseInt(s, 10, 64)`, on the sign
and the result of `ParseUint`: a syntax error is passed on with value 0; a
magnitude outside `int64` gives the nearest bound and a range error; else the
value is the magnitude converted to `int64`, negated under a minus sign. -/
def signedOfUint (neg : Bool) : Nat × Option NumError → Int × Option NumError
  | (_, some NumError.ErrSyntax) => (0, some NumError.ErrSyntax)
  | (un, _) =>
    if !neg ∧ un ≥ 2 ^ 63 then (2 ^ 63 - 1, some NumError.ErrRange)
    else if neg ∧ un > 2 ^ 63 then (-(2 ^ 63), some NumError.ErrRange)
    else (if neg then wrap64 (-(wrap64 un)) else wrap64 un, none)

/-- Go `strconv.ParseInt(s, 10, 64)`: value and error. The empty string is a
syntax error; an optional leading sign is picked off, the rest is parsed
unsigned, and the range of `int64` is checked. -/
def ParseInt (s : Bytes) : Int × Option NumError :=
  match s with
  | [] => (0, some NumError.ErrSyntax)
  | c :: cs =>
    signedOfUint (c = 45) (ParseUint (if c = 43 ∨ c = 45 then cs else c :: cs))

/-! ## Metadata line -/

/-- The metadata line of `sendFile`: `fmt.Sprintf("%s|%d", fileName, fileSize)`. -/
def metaData (fileName : Bytes) (fileSize : Int) : Bytes :=
  fileName ++ PIPE :: formatInt fileSize

/-- The metadata parse of `receiveFile`: `strings.Split(metadata, "|")`, then
`len(parts) != 2` is rejected, else `parts[0]` is the file name and the value
of `strconv.ParseInt(parts[1], 10, 64)` the size, its error being discarded. -/
def parseMetadata (metadata : Bytes) : Option (Bytes × Int) :=
  match Split PIPE metadata with
  | [fileName, sizeText] => some (fileName, (ParseInt sizeText).1)
  | _ => none

/-! ## Paths

The package `path/filepath` is the library of the platform the program is
built for. The send and the receive path take its two functions in use as a
parameter (`PathPkg`). The definitions `Clean`, `Join` and `Base` below are
the ones of a Unix build (`//go:build !windows`, the build of
`socket_unix.go`), where `/` is the only separator and there are no volume
names; they make up the instance `unixPaths`. -/

/-- One step of the lexical processing of `filepath.Clean`, on the stack of
path elements kept so far (top first): an empty element or `.` is dropped;
`..` removes the element before it when that is not itself `..`, is kept when
nothing can be removed and the path is not rooted, and is dropped at the root;
any other element is kept. -/
def cleanStep (rooted : Bool) (st : List Bytes) (c : Bytes) : List Bytes :=
  if c = [] ∨ c = [DOT] then st
  else if c = [DOT, DOT] then
    match st with
    | [] => if rooted then [] else [c]
    | t :: rest => if t = [DOT, DOT] then (if rooted then st else c :: st) else rest
  else c :: st

/-- Whether a path starts with the separator. -/
def isRooted (path : Bytes) : Bool := path.head? = some SLASH

/-- The stack of elements (top first) that `filepath.Clean` keeps for a path. -/
def cleanStack (path : Bytes) : List Bytes :=
  (Split SLASH path).foldl (cleanStep (isRooted path)) []

/-- The path text for a stack of kept elements. -/
def renderPath (rooted : Bool) (st : List Bytes) : Bytes :=
  let body := strJoin SLASH st.reverse
  if rooted then SLASH :: body else if body = [] then [DOT] else body

/-- Go `filepath.Clean` of a Unix build: the shortest path equivalent to `path` by
purely lexical processing; the empty path becomes `.`. -/
def Clean (path : Bytes) : Bytes := renderPath (isRooted path) (cleanStack path)

/-- Go `filepath.Join` of a Unix build: leading empty elements are ignored, the rest
are joined with the separator and the result is cleaned; no non-empty element
gives the empty string. -/
def Join (elem : List Bytes) : Bytes :=
  match elem.dropWhile (fun e => e = []) with
  | [] => []
  | es => Clean (strJoin SLASH es)

/-- Go `filepath.Base` of a Unix build: the last element of the path, after trailing
separators are removed; `.` for the empty path, `/` for a path of separators. -/
def Base (path : Bytes) : Bytes :=
  if path = [] then [DOT]
  else
    let stripped := (path.reverse.dropWhile (fun b => b = SLASH)).reverse
    let last := (stripped.reverse.takeWhile (fun b => b ≠ SLASH)).reverse
    if last = [] then [SLASH] else last

/-- The functions of the platform's `path/filepath` that the program calls. -/
structure PathPkg where
  /-- The function `filepath.Base`. -/
  Base : Bytes → Bytes
  /-- The function `filepath.Join`. -/
  Join : List Bytes → Bytes

/-- The package `path/filepath` of a Unix build. -/
def unixPaths : PathPkg := { Base := Base, Join := Join }

/-- The function `getDownloadsDir`: `home` is the result of `os.UserHomeDir`,
`none` when it fails. -/
def getDownloadsDir (fp : PathPkg) (home : Option Bytes) : Bytes :=
  match home with
  | none => ascii "downloads"
  | some h => fp.Join [h, ascii "Downloads"]

/-- The output path of `receiveFile`:
`filepath.Join(getDownloadsDir(), fileName)`. -/
def outputPath (fp : PathPkg) (home : Option Bytes) (fileName : Bytes) : Bytes :=
  fp.Join [getDownloadsDir fp home, fileName]

/-! ## ProgressReader and ProgressWriter -/

/-- The struct `ProgressReader`, without the wrapped reader: the callback
`OnProgress` is `none` for nil, else a function whose call is recorded as an
event of type `ε`. -/
structure ProgressReader (ε : Type) where
  Total : Int
  BytesRead : Int
  OnProgress : Option (Int → ε)

/-- The method `ProgressReader.Read`, given the count `n` the wrapped reader
returned: `BytesRead += int64(n)`, then the callback, when there is one, is
called with the new `BytesRead`. Returns the new state and the calls made. -/
def ProgressReader.Read {ε : Type} (pr : ProgressReader ε) (n : Int) :
    ProgressReader ε × List ε :=
  let bytesRead := wrap64 (pr.BytesRead + wrap64 n)
  ({ pr with BytesRead := bytesRead },
    match pr.OnProgress with
    | none => []
    | some f => [f bytesRead])

/-- The struct `ProgressWriter`, without the wrapped writer. -/
structure ProgressWriter (ε : Type) where
  Total : Int
  BytesWritten : Int
  OnProgress : Option (Int → ε)

/-- The method `ProgressWriter.Write`, given the count `n` the wrapped writer
returned. -/
def ProgressWriter.Write {ε : Type} (pw : ProgressWriter ε) (n : Int) :
    ProgressWriter ε × List ε :=
  let bytesWritten := wrap64 (pw.BytesWritten + wrap64 n)
  ({ pw with BytesWritten := bytesWritten },
    match pw.OnProgress with
    | none => []
    | some f => [f bytesWritten])

/-- A sequence of `Read` calls whose wrapped calls return the counts `ns`:
the final state and all callback calls, in order. -/
def ProgressReader.run {ε : Type} (pr : ProgressReader ε) :
    List Int → ProgressReader ε × List ε
  | [] => (pr, [])
  | n :: ns =>
    let r := pr.Read n
    let rest := ProgressReader.run r.1 ns
    (rest.1, r.2 ++ rest.2)

/-- A sequence of `Write` calls whose wrapped calls return the counts `ns`. -/
def ProgressWriter.run {ε : Type} (pw : ProgressWriter ε) :
    List Int → ProgressWriter ε × List ε
  | [] => (pw, [])
  | n :: ns =>
    let r := pw.Write n
    let rest := ProgressWriter.run r.1 ns
    (rest.1, r.2 ++ rest.2)

/-! ## Events -/

/-- The status strings handed to `updateStatus`, by format; the arguments kept
are the ones that do not depend on the clock. -/
inductive Status where
  | preparing (fileName : Bytes)
  | errorOpeningFile
  | errorGettingFileInfo
  | errorCreatingListener
  | waitingForReceiver
  | errorAccepting
  | errorSendingMetadata
  | sending (bytesRead fileSize : Int)
  | errorDuringTransfer
  | fileSent (fileName : Bytes)
  | connecting (ipAddress : Bytes)
  | errorConnecting
  | errorReadingMetadata
  | invalidMetadata
  | errorCreatingFile
  | receiving (bytesWritten fileSize : Int)
  | fileReceived (path : Bytes)
  deriving DecidableEq, Repr

/-- The observable actions of a transfer, in the order they happen. A
`connWrite` or `fileWrite` carries the bytes the write call put on the
connection or in the file (all of its data, or the part before the failure);
`createFile` is an `os.Create` that succeeded, `createFileFailed` one that
failed. -/
inductive Event where
  | status (s : Status)
  | openFile (path : Bytes)
  | statFile
  | listen (address : Bytes)
  | accept
  | setKeepAlive
  | dial (address : Bytes)
  | connWrite (data : Bytes)
  | createFile (path : Bytes)
  | createFileFailed (path : Bytes)
  | fileWrite (data : Bytes)
  | closeConn
  | closeListener
  | closeFile
  deriving DecidableEq, Repr

/-- The constant `PORT` of `main.go`. -/
def PORT : Bytes := ascii ":8010"

/-- All bytes written to the connection, in order. -/
def connBytes : List Event → Bytes
  | [] => []
  | Event.connWrite d :: es => d ++ connBytes es
  | _ :: es => connBytes es

/-- All bytes written to the output file, in order. -/
def fileBytes : List Event → Bytes
  | [] => []
  | Event.fileWrite d :: es => d ++ fileBytes es
  | _ :: es => fileBytes es

/-- The paths of the files that were created, in order. -/
def createdFiles : List Event → List Bytes
  | [] => []
  | Event.createFile p :: es => p :: createdFiles es
  | _ :: es => createdFiles es

/-! ## The send path -/

/-- The outcome of a write call: `none` when all the data is written without
error, `some k` when the call fails after writing `k` bytes (at most the
length of the data): it returns an error, or a count short of the data, which
`io.Copy` takes for an error too. -/
abbrev WriteOutcome := Option Nat

/-- The outcomes of the system calls of one `sendFile` run. -/
structure SendEnv where
  /-- Whether `os.Open` succeeds. -/
  openOk : Bool
  /-- The size `file.Stat` reports, `none` when it fails. -/
  statSize : Option Int
  /-- Whether `lc.Listen` succeeds. -/
  listenOk : Bool
  /-- Whether `listener.Accept` returns a connection. -/
  acceptOk : Bool
  /-- Whether the write of the metadata line succeeds. -/
  metaWriteOk : Bool
  /-- The data the successive reads of the file return inside `io.Copy`. -/
  fileReads : List Bytes
  /-- Whether the last read returns an error instead of the end of file. -/
  copyFails : Bool
  /-- The number of bytes of the metadata line that reach the connection when
  its write fails. -/
  metaPartial : Nat
  /-- The outcomes of the successive writes to the connection inside `io.Copy`;
  the writes beyond the list succeed. -/
  connWrites : List WriteOutcome

/-- The loop of `io.Copy(conn, progressReader)`: each read goes through
`ProgressReader.Read`, and a read that returned data is followed by the write
of that data to the connection. The loop ends at the first write that fails,
without a further read, or with the last read, which returns no data, with
the end of file or an error. Returns the events and whether a write failed. -/
def sendCopy (pr : ProgressReader Event) : List Bytes → List WriteOutcome → List Event × Bool
  | [], _ => ((pr.Read 0).2, false)
  | chunk :: rest, ws =>
    let r := pr.Read chunk.length
    if chunk = [] then
      let c := sendCopy r.1 rest ws
      (r.2 ++ c.1, c.2)
    else
      match ws.head? with
      | some (some k) => (r.2 ++ [Event.connWrite (chunk.take k)], true)
      | _ =>
        let c := sendCopy r.1 rest ws.tail
        (r.2 ++ [Event.connWrite chunk] ++ c.1, c.2)

/-- The progress reader `sendFile` builds. -/
def sendProgressReader (fileSize : Int) : ProgressReader Event :=
  { Total := fileSize, BytesRead := 0,
    OnProgress := some (fun bytesRead => Event.status (Status.sending bytesRead fileSize)) }

/-- The part of `sendFile` after a successful `Accept`, up to the return; the
deferred `conn.Close()` runs last. -/
def sendOnConn (env : SendEnv) (fileName : Bytes) (fileSize : Int) : List Event :=
  [Event.setKeepAlive] ++
  (if env.metaWriteOk then
    [Event.connWrite (metaData fileName fileSize)] ++
    (sendCopy (sendProgressReader fileSize) env.fileReads env.connWrites).1 ++
    [Event.status
      (if (sendCopy (sendProgressReader fileSize) env.fileReads env.connWrites).2 ∨
          env.copyFails then Status.errorDuringTransfer
        else Status.fileSent fileName)]
  else
    [Event.connWrite ((metaData fileName fileSize).take env.metaPartial),
      Event.status Status.errorSendingMetadata]) ++
  [Event.closeConn]

/-- The part of `sendFile` after a successful `Listen`, up to the return; the
deferred `listener.Close()` runs after the deferred `conn.Close()`. -/
def sendOnListener (env : SendEnv) (fileName : Bytes) (fileSize : Int) : List Event :=
  [Event.status Status.waitingForReceiver, Event.accept] ++
  (if env.acceptOk then sendOnConn env fileName fileSize
  else [Event.status Status.errorAccepting]) ++
  [Event.closeListener]

/-- The part of `sendFile` after a successful `Open`, up to the return; the
deferred `file.Close()` runs last of all. -/
def sendOnFile (env : SendEnv) (fileName : Bytes) : List Event :=
  [Event.statFile] ++
  (match env.statSize with
  | none => [Event.status Status.errorGettingFileInfo]
  | some fileSize =>
    [Event.listen PORT] ++
    (if env.listenOk then sendOnListener env fileName fileSize
    else [Event.status Status.errorCreatingListener])) ++
  [Event.closeFile]

/-- The method `Swiftshare.sendFile`: the trace of one run. -/
def sendFile (fp : PathPkg) (env : SendEnv) (filePath : Bytes) : List Event :=
  [Event.status (Status.preparing (fp.Base filePath)), Event.openFile filePath] ++
  (if env.openOk then sendOnFile env (fp.Base filePath)
  else [Event.status Status.errorOpeningFile])

/-! ## The receive path -/

/-- The outcomes of the system calls of one `receiveFile` run. -/
structure RecvEnv where
  /-- Whether `net.Dial` succeeds. -/
  dialOk : Bool
  /-- The bytes the first `conn.Read` returns, `none` when it fails. -/
  firstRead : Option Bytes
  /-- The result of `os.UserHomeDir`, `none` when it fails. -/
  home : Option Bytes
  /-- Whether `os.Create` succeeds. -/
  createOk : Bool
  /-- The data the successive reads of the connection return inside `io.Copy`. -/
  reads : List Bytes
  /-- Whether the last read returns an error instead of the end of stream. -/
  copyFails : Bool
  /-- The outcomes of the successive writes to the output file; the writes
  beyond the list succeed. -/
  fileWrites : List WriteOutcome

/-- The loop of `io.Copy(progressWriter, conn)`: a read that returned data is
followed by `ProgressWriter.Write`, which writes the data to the file, counts
the bytes the file took and reports the progress. The loop ends at the first
write that fails, or with the last read. Returns the events and whether a
write failed. -/
def recvCopy (pw : ProgressWriter Event) : List Bytes → List WriteOutcome → List Event × Bool
  | [], _ => ([], false)
  | chunk :: rest, ws =>
    if chunk = [] then recvCopy pw rest ws
    else
      match ws.head? with
      | some (some k) =>
        ([Event.fileWrite (chunk.take k)] ++ (pw.Write (chunk.take k).length).2, true)
      | _ =>
        let r := pw.Write chunk.length
        let c := recvCopy r.1 rest ws.tail
        ([Event.fileWrite chunk] ++ r.2 ++ c.1, c.2)

/-- The progress writer `receiveFile` builds. -/
def recvProgressWriter (fileSize : Int) : ProgressWriter Event :=
  { Total := fileSize, BytesWritten := 0,
    OnProgress := some (fun bytesWritten =>
      Event.status (Status.receiving bytesWritten fileSize)) }

/-- The part of `receiveFile` after a metadata line with two parts. -/
def recvOnMetadata (fp : PathPkg) (env : RecvEnv) (fileName sizeText : Bytes) : List Event :=
  let fileSize := (ParseInt sizeText).1
  let path := outputPath fp env.home fileName
  if env.createOk then
    [Event.createFile path] ++
    (recvCopy (recvProgressWriter fileSize) env.reads env.fileWrites).1 ++
    [Event.status
      (if (recvCopy (recvProgressWriter fileSize) env.reads env.fileWrites).2 ∨
          env.copyFails then Status.errorDuringTransfer
        else Status.fileReceived path)] ++
    [Event.closeFile]
  else [Event.createFileFailed path, Event.status Status.errorCreatingFile]

/-- The part of `receiveFile` after a successful `Dial`, up to the return; the
deferred `conn.Close()` runs last. -/
def recvOnConn (fp : PathPkg) (env : RecvEnv) : List Event :=
  (match env.firstRead with
  | none => [Event.status Status.errorReadingMetadata]
  | some metadata =>
    match Split PIPE metadata with
    | [fileName, sizeText] => recvOnMetadata fp env fileName sizeText
    | _ => [Event.status Status.invalidMetadata]) ++
  [Event.closeConn]

/-- The method `Swiftshare.receiveFile`: the trace of one run. -/
def receiveFile (fp : PathPkg) (env : RecvEnv) (ipAddress : Bytes) : List Event :=
  [Event.status (Status.connecting ipAddress), Event.dial (ipAddress ++ PORT)] ++
  (if env.dialOk then recvOnConn fp env else [Event.status Status.errorConnecting])

/-! ## Discovery -/

/-- The constant `port` of `discovery.go`. -/
def port : Nat := 3010

/-- The constant `serviceName` of `discovery.go`. -/
def serviceName : Bytes := ascii "_swiftshare._tcp"

/-- The constant `domain` of `discovery.go`. -/
def domain : Bytes := ascii "local."

/-- The arguments of a call to `zeroconf.Register`. -/
structure Registration where
  instanceName : Bytes
  service : Bytes
  domain : Bytes
  port : Nat
  text : List Bytes
  deriving DecidableEq, Repr

/-- A `*zeroconf.Server`: what it advertises and whether it was shut down. -/
structure Server where
  registration : Registration
  isShutdown : Bool
  deriving DecidableEq, Repr

/-- The state of a Go channel, as far as `close` is concerned. -/
inductive Chan where
  | nil
  | isOpen
  | closed
  deriving DecidableEq, Repr

/-- The run-time panics of `close`. -/
inductive Panic where
  | closeOfNilChannel
  | closeOfClosedChannel
  deriving DecidableEq, Repr

/-- The Go builtin `close(ch)`. -/
def closeChan : Chan → Except Panic Chan
  | Chan.nil => Except.error Panic.closeOfNilChannel
  | Chan.isOpen => Except.ok Chan.closed
  | Chan.closed => Except.error Panic.closeOfClosedChannel

/-- The struct `Discovery` (the resolver plays no part here). -/
structure Discovery where
  server : Option Server
  entries : Chan
  deriving DecidableEq, Repr

/-- The function `NewDiscovery`. -/
def NewDiscovery : Discovery := { server := none, entries := Chan.isOpen }

/-- The arguments `RegisterService` passes to `zeroconf.Register`. -/
def registration (name : Bytes) : Registration :=
  { instanceName := name, service := serviceName, domain := domain,
    port := port, text := [ascii "txtv=0"] }

/-- The method `Discovery.RegisterService`; `registerOk` tells whether
`zeroconf.Register` succeeds. Returns the new state and whether an error is
returned. -/
def RegisterService (registerOk : Bool) (d : Discovery) (name : Bytes) : Discovery × Bool :=
  if registerOk then
    (Discovery.mk (some (Server.mk (registration name) false)) d.entries, false)
  else (Discovery.mk none d.entries, true)

/-- The method `Discovery.Shutdown`: the state it leaves and the panic it
raises, if any. -/
def Shutdown (d : Discovery) : Discovery × Option Panic :=
  let d1 : Discovery :=
    match d.server with
    | some s => Discovery.mk (some (Server.mk s.registration true)) d.entries
    | none => d
  match closeChan d1.entries with
  | Except.ok c => ({ d1 with entries := c }, none)
  | Except.error e => (d1, some e)

/-- A `net.IP`: a byte slice of length 4 or 16. -/
abbrev IP := Bytes

/-- Go `net.IP.To4`: the 4-byte form of an IPv4 address, `none` otherwise. -/
def To4 (ip : IP) : Option IP :=
  if ip.length = 4 then some ip
  else if ip.length = 16 ∧ ip.take 10 = List.replicate 10 0 ∧
    (ip.drop 10).take 2 = [255, 255]
  then some (ip.drop 12)
  else none

/-- Go `net.IP.IsLoopback`: `127.x.y.z`, or the IPv6 address `::1`. -/
def IsLoopback (ip : IP) : Bool :=
  match To4 ip with
  | some ip4 => ip4.head? = some 127
  | none => ip = List.replicate 15 0 ++ [1]

/-- The fields of `zeroconf.ServiceEntry` in use. -/
structure ServiceEntry where
  Instance : Bytes
  Port : Int
  AddrIPv4 : List IP

/-- The loop of `GetIPAddress` over the addresses left to visit. -/
def firstNonLoopback (ipString : IP → Bytes) : List IP → Bytes
  | [] => []
  | addr :: rest => if !IsLoopback addr then ipString addr else firstNonLoopback ipString rest

/-- The method `Discovery.GetIPAddress`; `ipString` is `net.IP.String`. -/
def GetIPAddress (ipString : IP → Bytes) (entry : ServiceEntry) : Bytes :=
  firstNonLoopback ipString entry.AddrIPv4

/-- Go `net.IP.String` on a 4-byte address: dotted decimal. -/
def ipv4String (ip : IP) : Bytes := strJoin DOT (ip.map (fun b => formatUint b.toNat))

/-- The port part of a network address, as `net.SplitHostPort` delimits it:
the port starts after the last colon, and is read as a decimal number; `none`
when there is no colon or no number. The host part is not examined (the
checks `net.Dial` makes on it, colons and brackets, are left out). -/
def addrPort (address : Bytes) : Option Nat :=
  let text := (address.reverse.takeWhile (fun b => b ≠ 58)).reverse
  match ParseUint text with
  | (n, none) => if address.contains 58 then some n else none
  | _ => none

/-! ## Definitions used in the statements and proofs -/

/-- The value of a digit string read most significant digit first, from `n`. -/
def decVal (ds : List Nat) (n : Nat) : Nat := ds.foldl (fun a d => a * 10 + d) n

/-- The cumulative totals of a sequence of counts: the sum of the first call,
of the first two calls, and so on. -/
def runningTotals (ns : List Int) : List Int :=
  (List.range ns.length).map (fun i => (ns.take (i + 1)).sum)

/-- In a stack of path elements (top first), every element under a `..` is a
`..` too. -/
def dotsBelow : List Bytes → Prop
  | [] => True
  | c :: rest => (c = [DOT, DOT] → ∀ x ∈ rest, x = [DOT, DOT]) ∧ dotsBelow rest

/-- The invariant of the stack of `filepath.Clean`: its elements are non-empty,
are not `.` and hold no separator; a rooted path keeps no `..`; and `..`
elements are at the bottom. -/
def StackOk (rooted : Bool) (st : List Bytes) : Prop :=
  (∀ c ∈ st, c ≠ [] ∧ c ≠ [DOT] ∧ SLASH ∉ c) ∧
  (rooted = true → [DOT, DOT] ∉ st) ∧ dotsBelow st

/-! ## Lemmas on `Split` and `strJoin` -/

theorem Split_ne_nil (sep : UInt8) (s : Bytes) : Split sep s ≠ [] := by
  induction s with
  | nil => simp [Split]
  | cons b rest ih =>
    unfold Split
    split
    · simp
    · split <;> simp

theorem length_Split (sep : UInt8) (s : Bytes) :
    (Split sep s).length = s.count sep + 1 := by
  induction s with
  | nil => simp [Split]
  | cons b rest ih =>
    unfold Split
    by_cases h : b = sep
    · subst h
      simp [ih]
    · rw [if_neg h]
      have hc : List.count sep (b :: rest) = List.count sep rest := by
        rw [List.count_cons]
        simp [h]
      rw [hc, ← ih]
      cases hs : Split sep rest with
      | nil => exact absurd hs (Split_ne_nil sep rest)
      | cons p ps => simp

theorem Split_of_not_mem (sep : UInt8) (s : Bytes) (h : sep ∉ s) : Split sep s = [s] := by
  induction s with
  | nil => simp [Split]
  | cons b rest ih =>
    have hb : b ≠ sep := fun e => h (by simp [e])
    have hr : sep ∉ rest := fun e => h (by simp [e])
    unfold Split
    rw [if_neg hb, ih hr]

theorem Split_append_sep (sep : UInt8) (a b : Bytes) :
    Split sep (a ++ sep :: b) = Split sep a ++ Split sep b := by
  induction a with
  | nil => simp [Split]
  | cons x a ih =>
    by_cases hx : x = sep
    · subst hx
      simp only [List.cons_append]
      rw [Split, if_pos rfl, ih]
      conv_rhs => rw [Split, if_pos rfl]
      simp
    · simp only [List.cons_append]
      rw [Split, if_neg hx, ih]
      conv_rhs => rw [Split, if_neg hx]
      cases hs : Split sep a with
      | nil => exact absurd hs (Split_ne_nil sep a)
      | cons p ps => simp

theorem not_mem_of_mem_Split (sep : UInt8) (s c : Bytes) (h : c ∈ Split sep s) : sep ∉ c := by
  induction s generalizing c with
  | nil =>
    simp [Split] at h
    simp [h]
  | cons b rest ih =>
    unfold Split at h
    by_cases hb : b = sep
    · rw [if_pos hb] at h
      rcases List.mem_cons.mp h with h1 | h1
      · simp [h1]
      · exact ih c h1
    · rw [if_neg hb] at h
      cases hs : Split sep rest with
      | nil => exact absurd hs (Split_ne_nil sep rest)
      | cons p ps =>
        rw [hs] at h
        simp only [List.mem_cons] at h
        rcases h with h1 | h1
        · subst h1
          have hp : sep ∉ p := ih p (by simp [hs])
          intro hm
          rcases List.mem_cons.mp hm with h2 | h2
          · exact hb h2.symm
          · exact hp h2
        · exact ih c (by simp [hs, h1])

/-! ## Malformed metadata (C3) -/

/-- C3. When the first message read by `receiveFile` does not contain exactly
one `|`, on every platform and whatever the later reads and writes would
give, the run consists of the connection status, the dial, the status
"Invalid metadata received" and the closing of the connection: no file is
created and no byte is written. -/
theorem receiveFile_rejects_malformed (fp : PathPkg) (env : RecvEnv)
    (ipAddress first : Bytes)
    (hdial : env.dialOk = true) (hfirst : env.firstRead = some first)
    (hcount : first.count PIPE ≠ 1) :
    receiveFile fp env ipAddress =
      [Event.status (Status.connecting ipAddress), Event.dial (ipAddress ++ PORT),
        Event.status Status.invalidMetadata, Event.closeConn] ∧
    createdFiles (receiveFile fp env ipAddress) = [] ∧
    fileBytes (receiveFile fp env ipAddress) = [] := by
  have hlen : (Split PIPE first).length ≠ 2 := by
    rw [length_Split]
    omega
  have hrun : receiveFile fp env ipAddress =
      [Event.status (Status.connecting ipAddress), Event.dial (ipAddress ++ PORT),
        Event.status Status.invalidMetadata, Event.closeConn] := by
    unfold receiveFile recvOnConn
    rw [hdial, hfirst]
    simp only [if_true]
    split
    · rename_i fileName sizeText heq
      rw [heq] at hlen
      simp at hlen
    · rfl
  refine ⟨hrun, ?_, ?_⟩
  · rw [hrun]
    rfl
  · rw [hrun]
    rfl

/-- C3 at a first message with two separators, on a Unix build. -/
theorem receiveFile_rejects_malformed_witness :
    (receiveFile unixPaths ⟨true, some (ascii "a|b|3"), none, true, [ascii "xyz"], false, []⟩
        (ascii "h") =
      [Event.status (Status.connecting (ascii "h")), Event.dial (ascii "h" ++ PORT),
        Event.status Status.invalidMetadata, Event.closeConn] ∧
      createdFiles (receiveFile unixPaths
        ⟨true, some (ascii "a|b|3"), none, true, [ascii "xyz"], false, []⟩ (ascii "h")) = [] ∧
      fileBytes (receiveFile unixPaths
        ⟨true, some (ascii "a|b|3"), none, true, [ascii "xyz"], false, []⟩ (ascii "h")) = []) ∧
    (ascii "a|b|3").count PIPE = 2 :=
  ⟨receiveFile_rejects_malformed unixPaths
    ⟨true, some (ascii "a|b|3"), none, true, [ascii "xyz"], false, []⟩
    (ascii "h") (ascii "a|b|3") rfl rfl (by decide), by decide⟩

/-! ## Decimal round trip (C2) -/

theorem digitByte_toNat (d : Nat) (h : d < 10) : (digitByte d).toNat = 48 + d := by
  interval_cases d <;> rfl

theorem digitByte_ne_PIPE (d : Nat) (h : d < 10) : digitByte d ≠ PIPE := by
  interval_cases d <;> decide

theorem digitByte_not_sign (d : Nat) (h : d < 10) : ¬ (digitByte d = 43 ∨ digitByte d = 45) := by
  interval_cases d <;> decide

theorem digitsRev_lt (fuel n d : Nat) (h : d ∈ digitsRev fuel n) : d < 10 := by
  induction fuel generalizing n with
  | zero => simp [digitsRev] at h
  | succ fuel ih =>
    unfold digitsRev at h
    split at h
    · simp at h
      omega
    · rcases List.mem_cons.mp h with h1 | h1
      · omega
      · exact ih _ h1

theorem digitsRev_ne_nil (fuel n : Nat) : digitsRev (fuel + 1) n ≠ [] := by
  unfold digitsRev
  split <;> simp

theorem digitsRev_value (fuel n : Nat) (h : n < fuel) :
    (digitsRev fuel n).foldr (fun d a => a * 10 + d) 0 = n := by
  induction fuel generalizing n with
  | zero => omega
  | succ fuel ih =>
    unfold digitsRev
    split
    · simp
    · have hlt : n / 10 < fuel := by omega
      simp only [List.foldr_cons]
      rw [ih _ hlt]
      omega

theorem le_decVal (ds : List Nat) (n : Nat) : n ≤ decVal ds n := by
  induction ds generalizing n with
  | nil => simp [decVal]
  | cons d ds ih =>
    have h := ih (n * 10 + d)
    simp only [decVal, List.foldl_cons] at h ⊢
    omega

theorem parseUintLoop_digits (ds : List Nat) (n : Nat) (hd : ∀ d ∈ ds, d < 10)
    (hv : decVal ds n < 2 ^ 64) :
    parseUintLoop (ds.map digitByte) n = (decVal ds n, none) := by
  induction ds generalizing n with
  | nil => simp [parseUintLoop, decVal]
  | cons d ds ih =>
    have hd10 : d < 10 := hd d (by simp)
    have hrest : ∀ x ∈ ds, x < 10 := fun x hx => hd x (by simp [hx])
    have hstep : decVal (d :: ds) n = decVal ds (n * 10 + d) := by simp [decVal]
    rw [hstep] at hv ⊢
    have hle := le_decVal ds (n * 10 + d)
    have hb := digitByte_toNat d hd10
    simp only [List.map_cons, parseUintLoop, hb]
    have h1 : 48 ≤ 48 + d ∧ 48 + d ≤ 57 := by omega
    rw [if_pos h1]
    have h2 : ¬ (n ≥ (2 ^ 64 - 1) / 10 + 1) := by norm_num; omega
    rw [if_neg h2]
    have h3 : (n * 10 + (48 + d - 48)) % 2 ^ 64 = n * 10 + d := by
      have : 48 + d - 48 = d := by omega
      rw [this]
      exact Nat.mod_eq_of_lt (by omega)
    simp only [h3]
    have h4 : ¬ (n * 10 + d < n * 10 ∨ n * 10 + d > 2 ^ 64 - 1) := by omega
    rw [if_neg h4]
    exact ih (n * 10 + d) hrest hv

theorem ParseUint_formatUint (n : Nat) (h : n < 2 ^ 64) :
    ParseUint (formatUint n) = (n, none) := by
  have hval : decVal (digitsRev (n + 1) n).reverse 0 = n := by
    unfold decVal
    rw [List.foldl_reverse]
    exact digitsRev_value (n + 1) n (by omega)
  have hne : formatUint n ≠ [] := by
    simp [formatUint, digitsRev_ne_nil]
  unfold ParseUint
  rw [if_neg hne]
  unfold formatUint
  rw [parseUintLoop_digits _ 0 (fun d hd => digitsRev_lt (n + 1) n d (by simpa using hd))
    (by rw [hval]; exact h), hval]

theorem formatUint_head (n : Nat) :
    ∃ d ds, d < 10 ∧ formatUint n = digitByte d :: ds := by
  unfold formatUint
  cases hl : (digitsRev (n + 1) n).reverse with
  | nil =>
    simp at hl
    exact absurd hl (digitsRev_ne_nil n n)
  | cons d ds =>
    refine ⟨d, ds.map digitByte, ?_, by simp⟩
    apply digitsRev_lt (n + 1) n d
    have : d ∈ (digitsRev (n + 1) n).reverse := by simp [hl]
    simpa using this

theorem PIPE_not_mem_formatUint (n : Nat) : PIPE ∉ formatUint n := by
  unfold formatUint
  intro h
  rcases List.mem_map.mp h with ⟨d, hd, he⟩
  exact digitByte_ne_PIPE d (digitsRev_lt (n + 1) n d (by simpa using hd)) he

theorem wrap64_of_range (x : Int) (h0 : -(2 ^ 63) ≤ x) (h1 : x < 2 ^ 63) : wrap64 x = x := by
  unfold wrap64
  omega

theorem ParseInt_formatInt (size : Int) (h0 : 0 ≤ size) (h63 : size < 2 ^ 63) :
    ParseInt (formatInt size) = (size, none) := by
  have hnat : (size.natAbs : Int) = size := Int.natAbs_of_nonneg h0
  have hlt : size.natAbs < 2 ^ 63 := by omega
  have hfmt : formatInt size = formatUint size.natAbs := by
    unfold formatInt
    rw [if_neg (by omega)]
  rcases formatUint_head size.natAbs with ⟨d, ds, hd, hds⟩
  have hpu := ParseUint_formatUint size.natAbs (by omega)
  rw [hfmt, hds]
  rw [hds] at hpu
  have hns := digitByte_not_sign d hd
  have h45 : digitByte d ≠ 45 := fun e => hns (Or.inr e)
  have h43 : digitByte d ≠ 43 := fun e => hns (Or.inl e)
  have hw : wrap64 (size.natAbs : Int) = size := by
    rw [hnat]
    exact wrap64_of_range size (by omega) h63
  have hnot : ¬ (9223372036854775808 ≤ size.natAbs) := by omega
  have hw2 : wrap64 |size| = size := by
    rw [abs_of_nonneg h0]
    exact wrap64_of_range size (by omega) h63
  unfold ParseInt
  simp [signedOfUint, h43, h45, hpu, hw2, hnot]

/-- C2. For every file name without `|` and every size in the non-negative
range of `int64`, the metadata line built by `sendFile` splits on `|` into
exactly the two parts name and decimal size, `strconv.ParseInt` on the second
part returns the size without error, and so the parse of `receiveFile`
recovers the pair. -/
theorem metadata_round_trip (fileName : Bytes) (fileSize : Int)
    (hname : PIPE ∉ fileName) (h0 : 0 ≤ fileSize) (h63 : fileSize < 2 ^ 63) :
    Split PIPE (metaData fileName fileSize) = [fileName, formatInt fileSize] ∧
    ParseInt (formatInt fileSize) = (fileSize, none) ∧
    parseMetadata (metaData fileName fileSize) = some (fileName, fileSize) := by
  have hfmt : formatInt fileSize = formatUint fileSize.natAbs := by
    unfold formatInt
    rw [if_neg (by omega)]
  have hsplit : Split PIPE (metaData fileName fileSize) = [fileName, formatInt fileSize] := by
    unfold metaData
    rw [Split_append_sep, Split_of_not_mem PIPE fileName hname,
      Split_of_not_mem PIPE (formatInt fileSize)
        (by rw [hfmt]; exact PIPE_not_mem_formatUint _)]
    rfl
  have hparse := ParseInt_formatInt fileSize h0 h63
  refine ⟨hsplit, hparse, ?_⟩
  unfold parseMetadata
  rw [hsplit]
  simp [hparse]

/-- C2 at the name `report.pdf` and the largest `int64`. -/
theorem metadata_round_trip_witness :
    Split PIPE (metaData (ascii "report.pdf") 9223372036854775807) =
      [ascii "report.pdf", formatInt 9223372036854775807] ∧
    ParseInt (formatInt 9223372036854775807) = (9223372036854775807, none) ∧
    parseMetadata (metaData (ascii "report.pdf") 9223372036854775807) =
      some (ascii "report.pdf", 9223372036854775807) :=
  metadata_round_trip (ascii "report.pdf") 9223372036854775807 (by decide) (by decide)
    (by decide)

/-! ## Progress counters (C4) -/

theorem sum_nonneg_of_forall (ns : List Int) (h : ∀ n ∈ ns, 0 ≤ n) : 0 ≤ ns.sum := by
  induction ns with
  | nil => simp
  | cons a l ih =>
    have ha : 0 ≤ a := h a (by simp)
    have hl : 0 ≤ l.sum := ih (fun n hn => h n (by simp [hn]))
    simp only [List.sum_cons]
    omega

theorem sum_take_le (ns : List Int) (h : ∀ n ∈ ns, 0 ≤ n) (i : Nat) :
    (ns.take i).sum ≤ ns.sum := by
  have hsplit : ns.sum = (ns.take i).sum + (ns.drop i).sum := by
    rw [← List.sum_append, List.take_append_drop]
  have hdrop : 0 ≤ (ns.drop i).sum :=
    sum_nonneg_of_forall _ (fun n hn => h n (List.mem_of_mem_drop hn))
  omega

theorem sum_take_mono (ns : List Int) (h : ∀ n ∈ ns, 0 ≤ n) (i j : Nat) (hij : i ≤ j) :
    (ns.take i).sum ≤ (ns.take j).sum := by
  have h1 := sum_take_le (ns.take j) (fun n hn => h n (List.mem_of_mem_take hn)) i
  rw [List.take_take, Nat.min_eq_left hij] at h1
  exact h1

theorem runningTotals_cons (c : Int) (f : Int → ε) (n : Int) (ns : List Int) :
    (List.range (n :: ns).length).map (fun i => f (c + ((n :: ns).take (i + 1)).sum)) =
      f (c + n) ::
        (List.range ns.length).map (fun i => f (c + n + (ns.take (i + 1)).sum)) := by
  simp only [List.length_cons, List.range_succ_eq_map, List.map_cons, List.map_map]
  refine congrArg₂ _ (by simp) ?_
  apply List.map_congr_left
  intro i _
  simp [add_assoc]

theorem progressReader_run_eq {ε : Type} (f : Option (Int → ε)) (total c : Int) (ns : List Int)
    (hc : 0 ≤ c) (hpos : ∀ n ∈ ns, 0 ≤ n) (hsum : c + ns.sum < 2 ^ 63) :
    (ProgressReader.mk total c f).run ns =
      (ProgressReader.mk total (c + ns.sum) f,
        match f with
        | none => []
        | some g => (List.range ns.length).map (fun i => g (c + (ns.take (i + 1)).sum))) := by
  induction ns generalizing c with
  | nil => cases f <;> simp [ProgressReader.run]
  | cons n ns ih =>
    have hn : 0 ≤ n := hpos n (by simp)
    have hrest : ∀ x ∈ ns, 0 ≤ x := fun x hx => hpos x (by simp [hx])
    have hs : 0 ≤ ns.sum := sum_nonneg_of_forall ns hrest
    simp only [List.sum_cons] at hsum
    have hw1 : wrap64 n = n := wrap64_of_range n (by omega) (by omega)
    have hw2 : wrap64 (c + n) = c + n := wrap64_of_range _ (by omega) (by omega)
    have hih := ih (c + n) (by omega) hrest (by omega)
    cases f with
    | none =>
      simp only [ProgressReader.run, ProgressReader.Read, hw1, hw2, hih, List.sum_cons]
      simp [add_assoc]
    | some g =>
      simp only [ProgressReader.run, ProgressReader.Read, hw1, hw2, hih, List.sum_cons]
      rw [runningTotals_cons c g n ns]
      simp [add_assoc]

theorem progressWriter_run_eq {ε : Type} (f : Option (Int → ε)) (total c : Int) (ns : List Int)
    (hc : 0 ≤ c) (hpos : ∀ n ∈ ns, 0 ≤ n) (hsum : c + ns.sum < 2 ^ 63) :
    (ProgressWriter.mk total c f).run ns =
      (ProgressWriter.mk total (c + ns.sum) f,
        match f with
        | none => []
        | some g => (List.range ns.length).map (fun i => g (c + (ns.take (i + 1)).sum))) := by
  induction ns generalizing c with
  | nil => cases f <;> simp [ProgressWriter.run]
  | cons n ns ih =>
    have hn : 0 ≤ n := hpos n (by simp)
    have hrest : ∀ x ∈ ns, 0 ≤ x := fun x hx => hpos x (by simp [hx])
    have hs : 0 ≤ ns.sum := sum_nonneg_of_forall ns hrest
    simp only [List.sum_cons] at hsum
    have hw1 : wrap64 n = n := wrap64_of_range n (by omega) (by omega)
    have hw2 : wrap64 (c + n) = c + n := wrap64_of_range _ (by omega) (by omega)
    have hih := ih (c + n) (by omega) hrest (by omega)
    cases f with
    | none =>
      simp only [ProgressWriter.run, ProgressWriter.Write, hw1, hw2, hih, List.sum_cons]
      simp [add_assoc]
    | some g =>
      simp only [ProgressWriter.run, ProgressWriter.Write, hw1, hw2, hih, List.sum_cons]
      rw [runningTotals_cons c g n ns]
      simp [add_assoc]

theorem runningTotals_pairwise (ns : List Int) (hpos : ∀ n ∈ ns, 0 ≤ n) :
    List.Pairwise (fun a b => a ≤ b) (runningTotals ns) := by
  unfold runningTotals
  rw [List.pairwise_map]
  exact (List.pairwise_lt_range ns.length).imp
    (fun {i j} hij => sum_take_mono ns hpos (i + 1) (j + 1) (by omega))

theorem runningTotals_getLast (ns : List Int) (h : ns ≠ []) :
    (runningTotals ns).getLast? = some ns.sum := by
  unfold runningTotals
  have hlen : ns.length = (ns.length - 1) + 1 := by
    have : 0 < ns.length := List.length_pos.mpr h
    omega
  rw [hlen, List.range_succ]
  simp only [List.map_append, List.map_cons, List.map_nil, List.getLast?_append, List.getLast?_singleton]
  rw [← hlen, List.take_length]
  rfl

/-- C4. A `ProgressReader` (resp. `ProgressWriter`) starts with its counter at
0 and callback `cb` (nil when `none`), and its `Read` (resp. `Write`) is called
with the wrapped calls returning the counts `ns`, all non-negative and of sum
below `2^63`. Then after the first `i` calls the counter is the sum of the first
`i` counts; the callback, when there is one, has been called exactly once per
call, in order, with the cumulative totals, and not at all when it is nil; the
totals reported are non-decreasing, as many as there were calls, and the last
one is the sum of all counts, which is also the final counter. -/
theorem progress_counter_invariant {ε : Type} (cb : Option (Int → ε)) (total : Int)
    (ns : List Int) (hpos : ∀ n ∈ ns, 0 ≤ n) (hsum : ns.sum < 2 ^ 63) :
    (∀ i, ((ProgressReader.mk total 0 cb).run (ns.take i)).1.BytesRead = (ns.take i).sum) ∧
    ((ProgressReader.mk total 0 cb).run ns).1.BytesRead = ns.sum ∧
    ((ProgressReader.mk total 0 cb).run ns).2 =
      (match cb with
        | none => []
        | some g => (runningTotals ns).map g) ∧
    (∀ i, ((ProgressWriter.mk total 0 cb).run (ns.take i)).1.BytesWritten = (ns.take i).sum) ∧
    ((ProgressWriter.mk total 0 cb).run ns).1.BytesWritten = ns.sum ∧
    ((ProgressWriter.mk total 0 cb).run ns).2 =
      (match cb with
        | none => []
        | some g => (runningTotals ns).map g) ∧
    (runningTotals ns).length = ns.length ∧
    List.Pairwise (fun a b => a ≤ b) (runningTotals ns) ∧
    (ns ≠ [] → (runningTotals ns).getLast? = some ns.sum) := by
  have htake : ∀ i, ∀ n ∈ ns.take i, 0 ≤ n := fun i n hn => hpos n (List.mem_of_mem_take hn)
  have hsumtake : ∀ i, (0 : Int) + (ns.take i).sum < 2 ^ 63 := fun i => by
    have := sum_take_le ns hpos i
    omega
  refine ⟨?_, ?_, ?_, ?_, ?_, ?_, ?_, runningTotals_pairwise ns hpos, runningTotals_getLast ns⟩
  · intro i
    rw [progressReader_run_eq cb total 0 (ns.take i) le_rfl (htake i) (hsumtake i)]
    simp
  · rw [progressReader_run_eq cb total 0 ns le_rfl hpos (by omega)]
    simp
  · rw [progressReader_run_eq cb total 0 ns le_rfl hpos (by omega)]
    cases cb <;> simp [runningTotals]
  · intro i
    rw [progressWriter_run_eq cb total 0 (ns.take i) le_rfl (htake i) (hsumtake i)]
    simp
  · rw [progressWriter_run_eq cb total 0 ns le_rfl hpos (by omega)]
    simp
  · rw [progressWriter_run_eq cb total 0 ns le_rfl hpos (by omega)]
    cases cb <;> simp [runningTotals]
  · simp [runningTotals]

/-- C4 at the counts 3, 0, 5 with a callback that records its argument: the
values reported are 3, 3, 8. -/
theorem progress_counter_invariant_witness :
    ((ProgressReader.mk 8 0 (some (fun v : Int => v))).run [3, 0, 5]).2 = [3, 3, 8] ∧
    ((ProgressWriter.mk 8 0 (some (fun v : Int => v))).run [3, 0, 5]).2 = [3, 3, 8] ∧
    ((ProgressReader.mk 8 0 (some (fun v : Int => v))).run [3, 0, 5]).1.BytesRead = 8 ∧
    ((ProgressWriter.mk 8 0 (some (fun v : Int => v))).run [3, 0, 5]).1.BytesWritten = 8 := by
  have h := progress_counter_invariant (some (fun v : Int => v)) 8 [3, 0, 5]
    (by decide) (by decide)
  refine ⟨?_, ?_, ?_, ?_⟩
  · rw [h.2.2.1]
    decide
  · rw [h.2.2.2.2.2.1]
    decide
  · rw [h.2.1]
    decide
  · rw [h.2.2.2.2.1]
    decide

/-! ## Address resolution (C5) -/

theorem firstNonLoopback_append (ipString : IP → Bytes) (pre rest : List IP)
    (h : ∀ x ∈ pre, IsLoopback x = true) :
    firstNonLoopback ipString (pre ++ rest) = firstNonLoopback ipString rest := by
  induction pre with
  | nil => rfl
  | cons x pre ih =>
    have hx : IsLoopback x = true := h x (by simp)
    simp only [List.cons_append, firstNonLoopback, hx]
    exact ih (fun y hy => h y (by simp [hy]))

/-- C5. `GetIPAddress` returns the string form of the first address of
`entry.AddrIPv4`, in list order, that is not a loopback address (every address
before it being loopback), and the empty string when the list is empty or
holds loopback addresses only. -/
theorem GetIPAddress_first_non_loopback (ipString : IP → Bytes) (entry : ServiceEntry) :
    (∀ pre a post, entry.AddrIPv4 = pre ++ a :: post → (∀ x ∈ pre, IsLoopback x = true) →
      IsLoopback a = false → GetIPAddress ipString entry = ipString a) ∧
    ((∀ x ∈ entry.AddrIPv4, IsLoopback x = true) → GetIPAddress ipString entry = []) := by
  constructor
  · intro pre a post hl hpre ha
    unfold GetIPAddress
    rw [hl, firstNonLoopback_append ipString pre (a :: post) hpre]
    simp [firstNonLoopback, ha]
  · intro hall
    unfold GetIPAddress
    have h := firstNonLoopback_append ipString entry.AddrIPv4 [] hall
    simpa [firstNonLoopback] using h

/-- C5 at the addresses 127.0.0.1, 10.0.0.5, 192.168.1.1 (the answer is
`10.0.0.5`) and at the single address 127.0.0.1 (no address). -/
theorem GetIPAddress_first_non_loopback_witness :
    GetIPAddress ipv4String ⟨ascii "peer", 3010, [[127, 0, 0, 1], [10, 0, 0, 5], [192, 168, 1, 1]]⟩ =
      ascii "10.0.0.5" ∧
    GetIPAddress ipv4String ⟨ascii "peer", 3010, [[127, 0, 0, 1]]⟩ = [] :=
  ⟨((GetIPAddress_first_non_loopback ipv4String
      ⟨ascii "peer", 3010, [[127, 0, 0, 1], [10, 0, 0, 5], [192, 168, 1, 1]]⟩).1
      [[127, 0, 0, 1]] [10, 0, 0, 5] [[192, 168, 1, 1]] rfl (by decide) (by decide)).trans
      (by decide),
    (GetIPAddress_first_non_loopback ipv4String ⟨ascii "peer", 3010, [[127, 0, 0, 1]]⟩).2
      (by decide)⟩

/-! ## Ports (C7) -/

theorem addrPort_dial (ipAddress : Bytes) : addrPort (ipAddress ++ PORT) = some 8010 := by
  have htext : ((ipAddress ++ PORT).reverse.takeWhile (fun b => b ≠ 58)).reverse =
      ascii "8010" := by
    have hrev : (ipAddress ++ PORT).reverse =
        [48, 49, 48, 56] ++ (58 : UInt8) :: ipAddress.reverse := by
      rw [List.reverse_append]
      rfl
    rw [hrev]
    rfl
  have hcont : (ipAddress ++ PORT).contains 58 = true := by
    have hmem : (58 : UInt8) ∈ ipAddress ++ PORT := List.mem_append_right _ (by decide)
    simpa using hmem
  have hparse : ParseUint (ascii "8010") = (8010, none) := by decide
  unfold addrPort
  simp only [htext, hparse, hcont, if_true]

/-- C7. The port `RegisterService` advertises is 3010, for every instance
name, while the address `sendFile` listens on and every address `receiveFile`
dials have the port part 8010, on every platform: the listener and the dialer
agree with each other, and the advertised port is a different one. -/
theorem advertised_port_is_not_transfer_port (fp : PathPkg) (name ipAddress : Bytes)
    (env : RecvEnv) :
    (RegisterService true NewDiscovery name).1.server.map (fun s => s.registration.port) =
      some 3010 ∧
    addrPort PORT = some 8010 ∧
    addrPort (ipAddress ++ PORT) = some 8010 ∧
    Event.dial (ipAddress ++ PORT) ∈ receiveFile fp env ipAddress ∧
    Event.listen PORT ∈ sendFile fp ⟨true, some 0, true, true, true, [], false, 0, []⟩ name ∧
    (some 3010 : Option Nat) ≠ addrPort PORT := by
  refine ⟨rfl, by decide, addrPort_dial ipAddress, ?_, ?_, by decide⟩
  · simp [receiveFile]
  · simp [sendFile, sendOnFile]

/-! ## Shutdown (C8) -/

/-- C8, as stated, fails: on the discovery that `NewDiscovery` builds, a first
`Shutdown` closes the entries channel, and a second `Shutdown`, called with the
channel already closed, closes it again and panics. -/
theorem Shutdown_twice_panics :
    (Shutdown NewDiscovery).2 = none ∧
    (Shutdown NewDiscovery).1.entries = Chan.closed ∧
    (Shutdown (Shutdown NewDiscovery).1).2 = some Panic.closeOfClosedChannel := by
  decide

/-- C8, amended. For every discovery state, `Shutdown` shuts down the server
when one is registered and then closes the entries channel without a guard: an
open channel becomes closed and there is no panic, while a channel that is
already closed (or nil) makes `close` panic. The one call that `Run` makes, on
the discovery built by `NewDiscovery` and `RegisterService`, does not panic. -/
theorem Shutdown_closes_unguarded (d : Discovery) (registerOk : Bool) (name : Bytes) :
    (Shutdown d).1.server = d.server.map (fun s => Server.mk s.registration true) ∧
    (Shutdown d).2 =
      (match d.entries with
        | Chan.isOpen => none
        | Chan.closed => some Panic.closeOfClosedChannel
        | Chan.nil => some Panic.closeOfNilChannel) ∧
    (Shutdown d).1.entries =
      (match d.entries with
        | Chan.isOpen => Chan.closed
        | Chan.closed => Chan.closed
        | Chan.nil => Chan.nil) ∧
    (Shutdown (RegisterService registerOk NewDiscovery name).1).2 = none ∧
    (Shutdown (RegisterService registerOk NewDiscovery name).1).1.entries = Chan.closed := by
  refine ⟨?_, ?_, ?_, ?_, ?_⟩
  · rcases d with ⟨_ | s, _ | _ | _⟩ <;> rfl
  · rcases d with ⟨_ | s, _ | _ | _⟩ <;> rfl
  · rcases d with ⟨_ | s, _ | _ | _⟩ <;> rfl
  · cases registerOk <;> rfl
  · cases registerOk <;> rfl

/-! ## Lemmas on traces -/

theorem strJoin_Split (sep : UInt8) (s : Bytes) : strJoin sep (Split sep s) = s := by
  induction s with
  | nil => rfl
  | cons b rest ih =>
    unfold Split
    by_cases hb : b = sep
    · rw [if_pos hb]
      cases hs : Split sep rest with
      | nil => exact absurd hs (Split_ne_nil sep rest)
      | cons p ps =>
        rw [hs] at ih
        simp only [strJoin, List.nil_append, ih, hb]
    · rw [if_neg hb]
      cases hs : Split sep rest with
      | nil => exact absurd hs (Split_ne_nil sep rest)
      | cons p ps =>
        rw [hs] at ih
        cases ps with
        | nil =>
          simp only [strJoin] at ih ⊢
          rw [ih]
        | cons q qs =>
          simp only [strJoin] at ih ⊢
          rw [← ih]
          simp

theorem fileBytes_append (a b : List Event) : fileBytes (a ++ b) = fileBytes a ++ fileBytes b := by
  induction a with
  | nil => rfl
  | cons e a ih => cases e <;> simp [fileBytes, ih]

theorem connBytes_append (a b : List Event) : connBytes (a ++ b) = connBytes a ++ connBytes b := by
  induction a with
  | nil => rfl
  | cons e a ih => cases e <;> simp [connBytes, ih]

theorem createdFiles_append (a b : List Event) :
    createdFiles (a ++ b) = createdFiles a ++ createdFiles b := by
  induction a with
  | nil => rfl
  | cons e a ih => cases e <;> simp [createdFiles, ih]

theorem recvCopy_cons_of_fail (pw : ProgressWriter Event) (chunk : Bytes) (rest : List Bytes)
    (k : Nat) (ws : List WriteOutcome) (hc : chunk ≠ []) :
    recvCopy pw (chunk :: rest) (some k :: ws) =
      ([Event.fileWrite (chunk.take k)] ++ (pw.Write (chunk.take k).length).2, true) := by
  rw [recvCopy, if_neg hc]
  rfl

theorem recvCopy_cons_of_ok (pw : ProgressWriter Event) (chunk : Bytes) (rest : List Bytes)
    (ws : List WriteOutcome) (hc : chunk ≠ []) (hw : ∀ k, ws.head? ≠ some (some k)) :
    recvCopy pw (chunk :: rest) ws =
      ([Event.fileWrite chunk] ++ (pw.Write chunk.length).2 ++
          (recvCopy (pw.Write chunk.length).1 rest ws.tail).1,
        (recvCopy (pw.Write chunk.length).1 rest ws.tail).2) := by
  rw [recvCopy, if_neg hc]
  split
  · rename_i k hk
    exact absurd hk (hw k)
  · rfl

theorem recvCopy_cons_nil (pw : ProgressWriter Event) (rest : List Bytes)
    (ws : List WriteOutcome) : recvCopy pw ([] :: rest) ws = recvCopy pw rest ws := by
  rw [recvCopy, if_pos rfl]

theorem sendCopy_cons_nil (pr : ProgressReader Event) (rest : List Bytes)
    (ws : List WriteOutcome) :
    sendCopy pr ([] :: rest) ws =
      ((pr.Read 0).2 ++ (sendCopy (pr.Read 0).1 rest ws).1,
        (sendCopy (pr.Read 0).1 rest ws).2) := by
  rw [sendCopy, if_pos rfl]
  rfl

theorem sendCopy_cons_of_fail (pr : ProgressReader Event) (chunk : Bytes) (rest : List Bytes)
    (k : Nat) (ws : List WriteOutcome) (hc : chunk ≠ []) :
    sendCopy pr (chunk :: rest) (some k :: ws) =
      ((pr.Read chunk.length).2 ++ [Event.connWrite (chunk.take k)], true) := by
  rw [sendCopy, if_neg hc]
  rfl

theorem sendCopy_cons_of_ok (pr : ProgressReader Event) (chunk : Bytes) (rest : List Bytes)
    (ws : List WriteOutcome) (hc : chunk ≠ []) (hw : ∀ k, ws.head? ≠ some (some k)) :
    sendCopy pr (chunk :: rest) ws =
      ((pr.Read chunk.length).2 ++ [Event.connWrite chunk] ++
          (sendCopy (pr.Read chunk.length).1 rest ws.tail).1,
        (sendCopy (pr.Read chunk.length).1 rest ws.tail).2) := by
  rw [sendCopy, if_neg hc]
  split
  · rename_i k hk
    exact absurd hk (hw k)
  · rfl

/-- The three cases of a write outcome list: it starts with a failure, or its
first write succeeds. -/
theorem writeOutcome_cases (ws : List WriteOutcome) :
    (∃ k rest, ws = some k :: rest) ∨ (∀ k, ws.head? ≠ some (some k)) := by
  cases ws with
  | nil => exact Or.inr (fun k => by simp)
  | cons w rest =>
    cases w with
    | none => exact Or.inr (fun k => by simp)
    | some k => exact Or.inl ⟨k, rest, rfl⟩

theorem recvCopy_events (fileSize c : Int) (cb : Int → Event) (reads : List Bytes)
    (ws : List WriteOutcome) (e : Event)
    (h : e ∈ (recvCopy (ProgressWriter.mk fileSize c (some cb)) reads ws).1) :
    (∃ d, e = Event.fileWrite d) ∨ (∃ v, e = cb v) := by
  induction reads generalizing c ws with
  | nil => simp [recvCopy] at h
  | cons chunk rest ih =>
    by_cases hc : chunk = []
    · subst hc
      rw [recvCopy_cons_nil] at h
      exact ih c ws h
    · rcases writeOutcome_cases ws with ⟨k, ws1, hws⟩ | hok
      · subst hws
        rw [recvCopy_cons_of_fail _ _ _ _ _ hc] at h
        simp only [ProgressWriter.Write, List.mem_append, List.mem_singleton] at h
        rcases h with h | h
        · exact Or.inl ⟨_, h⟩
        · exact Or.inr ⟨_, h⟩
      · rw [recvCopy_cons_of_ok _ _ _ _ hc hok] at h
        simp only [ProgressWriter.Write, List.mem_append, List.mem_singleton] at h
        rcases h with (h | h) | h
        · exact Or.inl ⟨_, h⟩
        · exact Or.inr ⟨_, h⟩
        · exact ih _ _ h

theorem sendCopy_events (fileSize c : Int) (cb : Int → Event) (reads : List Bytes)
    (ws : List WriteOutcome) (e : Event)
    (h : e ∈ (sendCopy (ProgressReader.mk fileSize c (some cb)) reads ws).1) :
    (∃ d, e = Event.connWrite d) ∨ (∃ v, e = cb v) := by
  induction reads generalizing c ws with
  | nil =>
    simp only [sendCopy, ProgressReader.Read, List.mem_singleton] at h
    exact Or.inr ⟨_, h⟩
  | cons chunk rest ih =>
    by_cases hc : chunk = []
    · subst hc
      rw [sendCopy_cons_nil] at h
      simp only [ProgressReader.Read, List.mem_append, List.mem_singleton] at h
      rcases h with h | h
      · exact Or.inr ⟨_, h⟩
      · exact ih _ _ h
    · rcases writeOutcome_cases ws with ⟨k, ws1, hws⟩ | hok
      · subst hws
        rw [sendCopy_cons_of_fail _ _ _ _ _ hc] at h
        simp only [ProgressReader.Read, List.mem_append, List.mem_singleton] at h
        rcases h with h | h
        · exact Or.inr ⟨_, h⟩
        · exact Or.inl ⟨_, h⟩
      · rw [sendCopy_cons_of_ok _ _ _ _ hc hok] at h
        simp only [ProgressReader.Read, List.mem_append, List.mem_singleton] at h
        rcases h with (h | h) | h
        · exact Or.inr ⟨_, h⟩
        · exact Or.inl ⟨_, h⟩
        · exact ih _ _ h

theorem head?_ne_fail_of_all_none (ws : List WriteOutcome) (h : ∀ w ∈ ws, w = none) :
    ∀ k, ws.head? ≠ some (some k) := by
  intro k hk
  cases ws with
  | nil => simp at hk
  | cons w rest =>
    simp only [List.head?_cons, Option.some.injEq] at hk
    have := h w (by simp)
    rw [hk] at this
    exact absurd this (by simp)

theorem fileBytes_recvCopy_prefix (fileSize c total : Int) (reads : List Bytes)
    (ws : List WriteOutcome) :
    fileBytes (recvCopy (ProgressWriter.mk total c
      (some (fun v => Event.status (Status.receiving v fileSize)))) reads ws).1 <+:
        reads.flatten := by
  induction reads generalizing c ws with
  | nil => simp [recvCopy, fileBytes]
  | cons chunk rest ih =>
    by_cases hc : chunk = []
    · subst hc
      rw [recvCopy_cons_nil]
      simpa using ih c ws
    · rcases writeOutcome_cases ws with ⟨k, ws1, hws⟩ | hok
      · subst hws
        rw [recvCopy_cons_of_fail _ _ _ _ _ hc]
        simp only [ProgressWriter.Write]
        rw [fileBytes_append]
        have h1 : fileBytes [Event.fileWrite (List.take k chunk)] = List.take k chunk := by
          simp [fileBytes]
        have h2 : fileBytes [Event.status (Status.receiving
            (wrap64 (c + wrap64 ((List.take k chunk).length : Int))) fileSize)] = [] := rfl
        rw [h1, h2, List.append_nil, List.flatten_cons]
        exact (List.take_prefix k chunk).trans (List.prefix_append chunk rest.flatten)
      · rw [recvCopy_cons_of_ok _ _ _ _ hc hok]
        simp only [ProgressWriter.Write]
        rw [fileBytes_append, fileBytes_append]
        have h1 : fileBytes [Event.fileWrite chunk] = chunk := by simp [fileBytes]
        have h2 : fileBytes [Event.status (Status.receiving
            (wrap64 (c + wrap64 (chunk.length : Int))) fileSize)] = [] := rfl
        rw [h1, h2, List.append_nil, List.flatten_cons]
        exact (List.prefix_append_right_inj chunk).mpr (ih _ _)

theorem fileBytes_recvCopy (fileSize c total : Int) (reads : List Bytes)
    (ws : List WriteOutcome) (hws : ∀ w ∈ ws, w = none) :
    fileBytes (recvCopy (ProgressWriter.mk total c
      (some (fun v => Event.status (Status.receiving v fileSize)))) reads ws).1 =
        reads.flatten ∧
    (recvCopy (ProgressWriter.mk total c
      (some (fun v => Event.status (Status.receiving v fileSize)))) reads ws).2 = false := by
  induction reads generalizing c ws with
  | nil => simp [recvCopy, fileBytes]
  | cons chunk rest ih =>
    by_cases hc : chunk = []
    · subst hc
      rw [recvCopy_cons_nil]
      simpa using ih c ws hws
    · rw [recvCopy_cons_of_ok _ _ _ _ hc (head?_ne_fail_of_all_none ws hws)]
      have htail : ∀ w ∈ ws.tail, w = none := fun w hw => hws w (List.mem_of_mem_tail hw)
      simp only [ProgressWriter.Write]
      rw [fileBytes_append, fileBytes_append]
      have h1 : fileBytes [Event.fileWrite chunk] = chunk := by simp [fileBytes]
      have h2 : fileBytes [Event.status (Status.receiving
          (wrap64 (c + wrap64 (chunk.length : Int))) fileSize)] = [] := rfl
      rw [h1, h2, List.append_nil, List.flatten_cons, (ih _ _ htail).1]
      exact ⟨rfl, (ih _ _ htail).2⟩

theorem connBytes_sendCopy (fileSize c total : Int) (reads : List Bytes)
    (ws : List WriteOutcome) (hws : ∀ w ∈ ws, w = none) :
    connBytes (sendCopy (ProgressReader.mk total c
      (some (fun v => Event.status (Status.sending v fileSize)))) reads ws).1 =
        reads.flatten := by
  induction reads generalizing c ws with
  | nil => rfl
  | cons chunk rest ih =>
    by_cases hc : chunk = []
    · subst hc
      rw [sendCopy_cons_nil]
      simp only [ProgressReader.Read]
      rw [connBytes_append, ih _ _ hws]
      simp [connBytes]
    · rw [sendCopy_cons_of_ok _ _ _ _ hc (head?_ne_fail_of_all_none ws hws)]
      have htail : ∀ w ∈ ws.tail, w = none := fun w hw => hws w (List.mem_of_mem_tail hw)
      simp only [ProgressReader.Read]
      rw [connBytes_append, connBytes_append, ih _ _ htail]
      simp [connBytes]

theorem PIPE_not_mem_formatInt (size : Int) : PIPE ∉ formatInt size := by
  unfold formatInt
  split
  · intro h
    rcases List.mem_cons.mp h with h1 | h1
    · exact absurd h1 (by decide)
    · exact PIPE_not_mem_formatUint _ h1
  · exact PIPE_not_mem_formatUint _

theorem Split_metaData (fileName : Bytes) (fileSize : Int) (hname : PIPE ∉ fileName) :
    Split PIPE (metaData fileName fileSize) = [fileName, formatInt fileSize] := by
  unfold metaData
  rw [Split_append_sep, Split_of_not_mem PIPE fileName hname,
    Split_of_not_mem PIPE (formatInt fileSize) (PIPE_not_mem_formatInt fileSize)]
  rfl

theorem createdFiles_recvCopy (fileSize c total : Int) (reads : List Bytes)
    (ws : List WriteOutcome) :
    createdFiles (recvCopy (ProgressWriter.mk total c
      (some (fun v => Event.status (Status.receiving v fileSize)))) reads ws).1 = [] := by
  generalize hl : (recvCopy (ProgressWriter.mk total c
      (some (fun v => Event.status (Status.receiving v fileSize)))) reads ws).1 = l
  have hev : ∀ e ∈ l, (∃ d, e = Event.fileWrite d) ∨
      (∃ v, e = Event.status (Status.receiving v fileSize)) := by
    intro e he
    rw [← hl] at he
    exact recvCopy_events _ _ _ _ _ _ he
  clear hl
  induction l with
  | nil => rfl
  | cons e l ih =>
    have hl2 := ih (fun x hx => hev x (by simp [hx]))
    rcases hev e (by simp) with ⟨d, hd⟩ | ⟨v, hv⟩
    · subst hd
      simpa [createdFiles] using hl2
    · subst hv
      simpa [createdFiles] using hl2

theorem recvOnMetadata_of_create (fp : PathPkg) (env : RecvEnv) (fileName sizeText : Bytes)
    (hc : env.createOk = true) :
    recvOnMetadata fp env fileName sizeText =
      [Event.createFile (outputPath fp env.home fileName)] ++
      (recvCopy (recvProgressWriter (ParseInt sizeText).1) env.reads env.fileWrites).1 ++
      [Event.status
        (if (recvCopy (recvProgressWriter (ParseInt sizeText).1) env.reads
              env.fileWrites).2 ∨ env.copyFails then Status.errorDuringTransfer
          else Status.fileReceived (outputPath fp env.home fileName))] ++
      [Event.closeFile] := by
  unfold recvOnMetadata
  simp only [hc, if_true]

theorem recvOnMetadata_of_not_create (fp : PathPkg) (env : RecvEnv)
    (fileName sizeText : Bytes) (hc : env.createOk = false) :
    recvOnMetadata fp env fileName sizeText =
      [Event.createFileFailed (outputPath fp env.home fileName),
        Event.status Status.errorCreatingFile] := by
  unfold recvOnMetadata
  simp [hc]

theorem createdFiles_recvOnMetadata (fp : PathPkg) (env : RecvEnv)
    (fileName sizeText : Bytes) (hc : env.createOk = true) :
    createdFiles (recvOnMetadata fp env fileName sizeText) =
      [outputPath fp env.home fileName] := by
  rw [recvOnMetadata_of_create fp env fileName sizeText hc]
  unfold recvProgressWriter
  rw [createdFiles_append, createdFiles_append, createdFiles_append, createdFiles_recvCopy]
  rfl

theorem fileBytes_recvOnMetadata_prefix (fp : PathPkg) (env : RecvEnv)
    (fileName sizeText : Bytes) :
    fileBytes (recvOnMetadata fp env fileName sizeText) <+: env.reads.flatten := by
  cases hc : env.createOk with
  | false =>
    rw [recvOnMetadata_of_not_create fp env fileName sizeText hc]
    exact List.nil_prefix
  | true =>
    rw [recvOnMetadata_of_create fp env fileName sizeText hc]
    unfold recvProgressWriter
    rw [fileBytes_append, fileBytes_append, fileBytes_append]
    have h := fileBytes_recvCopy_prefix (ParseInt sizeText).1 0 (ParseInt sizeText).1
      env.reads env.fileWrites
    simpa [fileBytes] using h

theorem fileBytes_recvOnMetadata (fp : PathPkg) (env : RecvEnv) (fileName sizeText : Bytes)
    (hc : env.createOk = true) (hws : ∀ w ∈ env.fileWrites, w = none) :
    fileBytes (recvOnMetadata fp env fileName sizeText) = env.reads.flatten := by
  rw [recvOnMetadata_of_create fp env fileName sizeText hc]
  unfold recvProgressWriter
  rw [fileBytes_append, fileBytes_append, fileBytes_append,
    (fileBytes_recvCopy _ _ _ _ _ hws).1]
  simp [fileBytes]

/-! ## Malformed size field (C10) -/

theorem ParseInt_syntax_value (s : Bytes) (h : (ParseInt s).2 = some NumError.ErrSyntax) :
    (ParseInt s).1 = 0 := by
  have hsigned : ∀ (neg : Bool) (r : Nat × Option NumError),
      (signedOfUint neg r).2 = some NumError.ErrSyntax → (signedOfUint neg r).1 = 0 := by
    intro neg r hr
    rcases r with ⟨un, _ | _ | _⟩
    · simp only [signedOfUint] at hr ⊢
      split_ifs at hr ⊢ <;> simp at hr
    · rfl
    · simp only [signedOfUint] at hr ⊢
      split_ifs at hr ⊢ <;> simp at hr
  cases s with
  | nil => rfl
  | cons c cs => exact hsigned _ _ h

theorem receiveFile_of_two_parts (fp : PathPkg) (env : RecvEnv)
    (ipAddress first fileName sizeText : Bytes)
    (hdial : env.dialOk = true) (hfirst : env.firstRead = some first)
    (hsplit : Split PIPE first = [fileName, sizeText]) :
    receiveFile fp env ipAddress =
      [Event.status (Status.connecting ipAddress), Event.dial (ipAddress ++ PORT)] ++
        (recvOnMetadata fp env fileName sizeText ++ [Event.closeConn]) := by
  unfold receiveFile recvOnConn
  rw [hdial, hfirst]
  simp only [if_true, hsplit]

theorem invalidMetadata_not_mem_recvOnMetadata (fp : PathPkg) (env : RecvEnv)
    (fileName sizeText : Bytes) :
    Event.status Status.invalidMetadata ∉ recvOnMetadata fp env fileName sizeText := by
  cases hc : env.createOk with
  | false =>
    rw [recvOnMetadata_of_not_create fp env fileName sizeText hc]
    simp
  | true =>
    have hcopy : Event.status Status.invalidMetadata ∉
        (recvCopy (recvProgressWriter (ParseInt sizeText).1) env.reads env.fileWrites).1 := by
      intro h
      unfold recvProgressWriter at h
      rcases recvCopy_events _ _ _ _ _ _ h with ⟨d, hd⟩ | ⟨v, hv⟩
      · exact absurd hd (by simp)
      · exact absurd hv (by simp)
    rw [recvOnMetadata_of_create fp env fileName sizeText hc]
    simp only [List.mem_append, List.mem_singleton, not_or]
    refine ⟨⟨⟨by simp, hcopy⟩, ?_⟩, by simp⟩
    split_ifs <;> simp

/-- C10, as stated, fails: the first message `a|x` has exactly one `|` and its
second part `x` is not an integer (`ParseInt` reports a syntax error), yet
`receiveFile` reports no framing error, creates `downloads/a` and writes the
bytes that follow to it, with 0 as the file size. -/
theorem receiveFile_accepts_bad_size :
    (ascii "a|x").count PIPE = 1 ∧
    ParseInt (ascii "x") = (0, some NumError.ErrSyntax) ∧
    receiveFile unixPaths ⟨true, some (ascii "a|x"), none, true, [ascii "zz"], false, []⟩
        (ascii "h") =
      [Event.status (Status.connecting (ascii "h")), Event.dial (ascii "h:8010"),
        Event.createFile (ascii "downloads/a"), Event.fileWrite (ascii "zz"),
        Event.status (Status.receiving 2 0),
        Event.status (Status.fileReceived (ascii "downloads/a")),
        Event.closeFile, Event.closeConn] := by
  decide

/-- C10, amended. For every first message with exactly one `|`, whatever its
second part is and on every platform, `receiveFile` goes on after the split:
the message is a name, the `|` and a size text; the run is the one of
`recvOnMetadata` on these two parts, and no framing error is reported. When
`os.Create` succeeds, the one file created is the output path for the first
part; when it fails, no file is created and nothing is written. The bytes
written to the file are the first bytes of the data read after the first
message, up to the first write that fails, and all of that data when no write
fails. The error of `ParseInt` is discarded, the size being its value, which
is 0 on a syntax error. -/
theorem receiveFile_one_separator (fp : PathPkg) (env : RecvEnv) (ipAddress first : Bytes)
    (hdial : env.dialOk = true) (hfirst : env.firstRead = some first)
    (hcount : first.count PIPE = 1) :
    ∃ fileName sizeText, first = fileName ++ PIPE :: sizeText ∧
      receiveFile fp env ipAddress =
        [Event.status (Status.connecting ipAddress), Event.dial (ipAddress ++ PORT)] ++
          (recvOnMetadata fp env fileName sizeText ++ [Event.closeConn]) ∧
      Event.status Status.invalidMetadata ∉ receiveFile fp env ipAddress ∧
      (env.createOk = true →
        createdFiles (receiveFile fp env ipAddress) = [outputPath fp env.home fileName]) ∧
      (env.createOk = false →
        createdFiles (receiveFile fp env ipAddress) = [] ∧
        fileBytes (receiveFile fp env ipAddress) = [] ∧
        Event.status Status.errorCreatingFile ∈ receiveFile fp env ipAddress) ∧
      fileBytes (receiveFile fp env ipAddress) <+: env.reads.flatten ∧
      (env.createOk = true → (∀ w ∈ env.fileWrites, w = none) →
        fileBytes (receiveFile fp env ipAddress) = env.reads.flatten) ∧
      ((ParseInt sizeText).2 = some NumError.ErrSyntax → (ParseInt sizeText).1 = 0) := by
  have hlen : (Split PIPE first).length = 2 := by
    rw [length_Split, hcount]
  obtain ⟨fileName, sizeText, hsplit⟩ := List.length_eq_two.mp hlen
  have hjoin := strJoin_Split PIPE first
  rw [hsplit] at hjoin
  have hrun := receiveFile_of_two_parts fp env ipAddress first fileName sizeText hdial hfirst
    hsplit
  refine ⟨fileName, sizeText, hjoin.symm, hrun, ?_, ?_, ?_, ?_, ?_,
    ParseInt_syntax_value sizeText⟩
  · rw [hrun]
    have h := invalidMetadata_not_mem_recvOnMetadata fp env fileName sizeText
    simp [h]
  · intro hc
    rw [hrun, createdFiles_append, createdFiles_append,
      createdFiles_recvOnMetadata fp env fileName sizeText hc]
    rfl
  · intro hc
    rw [hrun, recvOnMetadata_of_not_create fp env fileName sizeText hc]
    exact ⟨rfl, rfl, by simp⟩
  · rw [hrun, fileBytes_append, fileBytes_append]
    have h := fileBytes_recvOnMetadata_prefix fp env fileName sizeText
    simpa [fileBytes] using h
  · intro hc hws
    rw [hrun, fileBytes_append, fileBytes_append,
      fileBytes_recvOnMetadata fp env fileName sizeText hc hws]
    simp [fileBytes]

/-- C10, amended, at the first message `a|` (an empty size text), with two
reads of data after it: once with all writes succeeding, once with the second
write failing after one byte. -/
theorem receiveFile_one_separator_witness :
    (ascii "a|").count PIPE = 1 ∧
    Event.status Status.invalidMetadata ∉ receiveFile unixPaths
      ⟨true, some (ascii "a|"), none, true, [ascii "zz", ascii "yy"], false, []⟩ (ascii "h") ∧
    fileBytes (receiveFile unixPaths
      ⟨true, some (ascii "a|"), none, true, [ascii "zz", ascii "yy"], false, []⟩
      (ascii "h")) = ascii "zzyy" ∧
    fileBytes (receiveFile unixPaths
      ⟨true, some (ascii "a|"), none, true, [ascii "zz", ascii "yy"], false, [none, some 1]⟩
      (ascii "h")) <+: ascii "zzyy" := by
  obtain ⟨_, _, _, _, hno, _, _, _, hfull, _⟩ := receiveFile_one_separator unixPaths
    ⟨true, some (ascii "a|"), none, true, [ascii "zz", ascii "yy"], false, []⟩
    (ascii "h") (ascii "a|") rfl rfl (by decide)
  obtain ⟨_, _, _, _, _, _, _, hpre, _, _⟩ := receiveFile_one_separator unixPaths
    ⟨true, some (ascii "a|"), none, true, [ascii "zz", ascii "yy"], false, [none, some 1]⟩
    (ascii "h") (ascii "a|") rfl rfl (by decide)
  exact ⟨by decide, hno, hfull rfl (by simp), hpre⟩

/-! ## End-to-end transfer (C1) -/

theorem connBytes_sendFile (fp : PathPkg) (env : SendEnv) (filePath : Bytes) (fileSize : Int)
    (hopen : env.openOk = true) (hstat : env.statSize = some fileSize)
    (hlisten : env.listenOk = true) (haccept : env.acceptOk = true)
    (hmeta : env.metaWriteOk = true) (hws : ∀ w ∈ env.connWrites, w = none) :
    connBytes (sendFile fp env filePath) =
      metaData (fp.Base filePath) fileSize ++ env.fileReads.flatten := by
  unfold sendFile sendOnFile sendOnListener sendOnConn sendProgressReader
  simp only [hopen, hstat, hlisten, haccept, hmeta, if_true]
  simp only [connBytes_append, connBytes_sendCopy _ _ _ _ _ hws]
  simp [connBytes]

/-- C1, as stated, fails: `sendFile` on a file `a` holding the one byte `x`
writes the stream `a|1x`; when the first read of `receiveFile` returns all four
bytes (a non-empty part of the stream of at most 1024 bytes, nothing being left
for later reads), the size text is `1x`, the file `downloads/a` is created and
nothing is written to it, so the output is not the source content. No system
call fails in either run. -/
theorem transfer_loses_bytes_of_first_read :
    connBytes (sendFile unixPaths ⟨true, some 1, true, true, true, [ascii "x"], false, 0, []⟩
      (ascii "a")) = ascii "a|1x" ∧
    ascii "a|1x" ++ ([] : List Bytes).flatten =
      connBytes (sendFile unixPaths ⟨true, some 1, true, true, true, [ascii "x"], false, 0, []⟩
        (ascii "a")) ∧
    0 < (ascii "a|1x").length ∧ (ascii "a|1x").length ≤ 1024 ∧
    PIPE ∉ unixPaths.Base (ascii "a") ∧
    createdFiles (receiveFile unixPaths ⟨true, some (ascii "a|1x"), none, true, [], false, []⟩
      (ascii "h")) = [ascii "downloads/a"] ∧
    fileBytes (receiveFile unixPaths ⟨true, some (ascii "a|1x"), none, true, [], false, []⟩
      (ascii "h")) = [] ∧
    fileBytes (receiveFile unixPaths ⟨true, some (ascii "a|1x"), none, true, [], false, []⟩
      (ascii "h")) ≠ ascii "x" := by
  decide

/-- C1, amended. On every platform, `sendFile` runs on a file of content
`content` whose base name has no `|`, with no failure up to the copy and no
failing write to the connection, and so writes the metadata line followed by
the content to the connection; `receiveFile` consumes that stream, its first
read returning exactly the metadata line (of at most 1024 bytes), the later
reads splitting the rest in any way, empty reads included, and no write to the
output file failing. Then the bytes written to the output file are exactly the
content, as many as the content has, and the one file created is the output
path for the sent name. -/
theorem transfer_end_to_end (fp : PathPkg) (senv : SendEnv) (renv : RecvEnv)
    (filePath ipAddress content first : Bytes)
    (hopen : senv.openOk = true) (hstat : senv.statSize = some (content.length : Int))
    (hlisten : senv.listenOk = true) (haccept : senv.acceptOk = true)
    (hmeta : senv.metaWriteOk = true) (hfile : senv.fileReads.flatten = content)
    (hconn : ∀ w ∈ senv.connWrites, w = none)
    (hname : PIPE ∉ fp.Base filePath)
    (hdial : renv.dialOk = true) (hcreate : renv.createOk = true)
    (hfirst : renv.firstRead = some first)
    (hwrites : ∀ w ∈ renv.fileWrites, w = none)
    (hstream : first ++ renv.reads.flatten = connBytes (sendFile fp senv filePath))
    (hline : first = metaData (fp.Base filePath) content.length)
    (_hbuf : first.length ≤ 1024) :
    connBytes (sendFile fp senv filePath) =
      metaData (fp.Base filePath) content.length ++ content ∧
    fileBytes (receiveFile fp renv ipAddress) = content ∧
    (fileBytes (receiveFile fp renv ipAddress)).length = content.length ∧
    createdFiles (receiveFile fp renv ipAddress) =
      [outputPath fp renv.home (fp.Base filePath)] := by
  have hsent := connBytes_sendFile fp senv filePath content.length hopen hstat hlisten
    haccept hmeta hconn
  rw [hfile] at hsent
  have hrest : renv.reads.flatten = content := by
    rw [hsent, hline] at hstream
    exact List.append_cancel_left hstream
  have hsplit : Split PIPE first = [fp.Base filePath, formatInt content.length] := by
    rw [hline]
    exact Split_metaData _ _ hname
  have hrun := receiveFile_of_two_parts fp renv ipAddress first (fp.Base filePath)
    (formatInt content.length) hdial hfirst hsplit
  have hbytes : fileBytes (receiveFile fp renv ipAddress) = content := by
    rw [hrun, fileBytes_append, fileBytes_append,
      fileBytes_recvOnMetadata fp renv _ _ hcreate hwrites, hrest]
    simp [fileBytes]
  refine ⟨hsent, hbytes, by rw [hbytes], ?_⟩
  rw [hrun, createdFiles_append, createdFiles_append,
    createdFiles_recvOnMetadata fp renv _ _ hcreate]
  rfl

/-- C1, amended, on a Unix build, at the file `/tmp/a.txt` holding `xyz`, read
from disk as `xy` then `z`, and received as the metadata line, then `x`, an
empty read and `yz`. -/
theorem transfer_end_to_end_witness :
    connBytes (sendFile unixPaths
      ⟨true, some 3, true, true, true, [ascii "xy", ascii "z"], false, 0, []⟩
      (ascii "/tmp/a.txt")) = metaData (unixPaths.Base (ascii "/tmp/a.txt")) 3 ++ ascii "xyz" ∧
    fileBytes (receiveFile unixPaths
      ⟨true, some (ascii "a.txt|3"), none, true, [ascii "x", [], ascii "yz"], false, []⟩
      (ascii "h")) = ascii "xyz" ∧
    (fileBytes (receiveFile unixPaths
      ⟨true, some (ascii "a.txt|3"), none, true, [ascii "x", [], ascii "yz"], false, []⟩
      (ascii "h"))).length = 3 ∧
    createdFiles (receiveFile unixPaths
      ⟨true, some (ascii "a.txt|3"), none, true, [ascii "x", [], ascii "yz"], false, []⟩
      (ascii "h")) = [outputPath unixPaths none (unixPaths.Base (ascii "/tmp/a.txt"))] :=
  transfer_end_to_end unixPaths
    ⟨true, some 3, true, true, true, [ascii "xy", ascii "z"], false, 0, []⟩
    ⟨true, some (ascii "a.txt|3"), none, true, [ascii "x", [], ascii "yz"], false, []⟩
    (ascii "/tmp/a.txt") (ascii "h") (ascii "xyz") (ascii "a.txt|3")
    rfl rfl rfl rfl rfl (by decide) (by decide) (by decide) rfl rfl rfl (by decide)
    (by decide) (by decide) (by decide)

/-! ## The listener during a session (C6) -/

theorem sendOnConn_no_listener_event (env : SendEnv) (fileName : Bytes) (fileSize : Int) :
    Event.accept ∉ sendOnConn env fileName fileSize ∧
    Event.closeListener ∉ sendOnConn env fileName fileSize := by
  have hcopy : ∀ e,
      e ∈ (sendCopy (sendProgressReader fileSize) env.fileReads env.connWrites).1 →
      e ≠ Event.accept ∧ e ≠ Event.closeListener := by
    intro e he
    unfold sendProgressReader at he
    rcases sendCopy_events _ _ _ _ _ _ he with ⟨d, hd⟩ | ⟨v, hv⟩
    · subst hd
      simp
    · subst hv
      simp
  have h1 : Event.accept ∉
      (sendCopy (sendProgressReader fileSize) env.fileReads env.connWrites).1 :=
    fun h => (hcopy _ h).1 rfl
  have h2 : Event.closeListener ∉
      (sendCopy (sendProgressReader fileSize) env.fileReads env.connWrites).1 :=
    fun h => (hcopy _ h).2 rfl
  unfold sendOnConn
  cases env.metaWriteOk <;> simp [h1, h2]

/-- C6, as stated, fails: in a run of `sendFile` where `Accept` returns a
connection, the metadata line and the file byte are written to the connection
before the listener is closed, which happens only after the connection is
closed, on return. -/
theorem listener_open_while_streaming :
    sendFile unixPaths ⟨true, some 1, true, true, true, [ascii "x"], false, 0, []⟩
        (ascii "a") =
      [Event.status (Status.preparing (ascii "a")), Event.openFile (ascii "a"),
        Event.statFile, Event.listen (ascii ":8010"),
        Event.status Status.waitingForReceiver, Event.accept, Event.setKeepAlive,
        Event.connWrite (ascii "a|1"), Event.status (Status.sending 1 1),
        Event.connWrite (ascii "x"), Event.status (Status.sending 1 1),
        Event.status (Status.fileSent (ascii "a")), Event.closeConn,
        Event.closeListener, Event.closeFile] ∧
    (sendFile unixPaths ⟨true, some 1, true, true, true, [ascii "x"], false, 0, []⟩
        (ascii "a")).indexOf (Event.connWrite (ascii "a|1")) <
      (sendFile unixPaths ⟨true, some 1, true, true, true, [ascii "x"], false, 0, []⟩
        (ascii "a")).indexOf Event.closeListener := by
  decide

/-- C6, amended. In every run of `sendFile` in which `Accept` returns, on
every platform and whatever fails afterwards, `Accept` is called once and the
listener is closed once, by the deferred `Close` on return, as the last action
but the closing of the file: after a failed `Accept` only the error status
comes in between; after a successful one the whole session comes in between,
that is the metadata write, the copy of the file and the closing of the
connection. -/
theorem listener_closed_on_return (fp : PathPkg) (env : SendEnv) (filePath : Bytes)
    (fileSize : Int)
    (hopen : env.openOk = true) (hstat : env.statSize = some fileSize)
    (hlisten : env.listenOk = true) :
    ∃ session, sendFile fp env filePath =
        [Event.status (Status.preparing (fp.Base filePath)), Event.openFile filePath,
          Event.statFile, Event.listen PORT, Event.status Status.waitingForReceiver,
          Event.accept] ++ session ++ [Event.closeListener, Event.closeFile] ∧
      Event.accept ∉ session ∧ Event.closeListener ∉ session ∧
      (env.acceptOk = false → session = [Event.status Status.errorAccepting]) ∧
      (env.acceptOk = true → session = sendOnConn env (fp.Base filePath) fileSize ∧
        session.getLast? = some Event.closeConn) ∧
      (env.acceptOk = true → env.metaWriteOk = true →
        Event.connWrite (metaData (fp.Base filePath) fileSize) ∈ session) := by
  have hno := sendOnConn_no_listener_event env (fp.Base filePath) fileSize
  refine ⟨if env.acceptOk then sendOnConn env (fp.Base filePath) fileSize
    else [Event.status Status.errorAccepting], ?_, ?_, ?_, ?_, ?_, ?_⟩
  · unfold sendFile sendOnFile sendOnListener
    simp only [hopen, hstat, hlisten, if_true]
    simp
  · cases hacc : env.acceptOk
    · simp
    · simpa using hno.1
  · cases hacc : env.acceptOk
    · simp
    · simpa using hno.2
  · intro hacc
    simp [hacc]
  · intro hacc
    simp only [hacc, if_true, true_and]
    unfold sendOnConn
    exact List.getLast?_concat _
  · intro hacc hmeta
    simp only [hacc, if_true]
    unfold sendOnConn
    simp [hmeta]

/-- C6, amended, on a Unix build, at a run where `Accept` fails and at one
where it succeeds. -/
theorem listener_closed_on_return_witness :
    (∃ session,
      sendFile unixPaths ⟨true, some 1, true, false, true, [ascii "x"], false, 0, []⟩
          (ascii "a") =
        [Event.status (Status.preparing (unixPaths.Base (ascii "a"))),
          Event.openFile (ascii "a"),
          Event.statFile, Event.listen PORT, Event.status Status.waitingForReceiver,
          Event.accept] ++ session ++ [Event.closeListener, Event.closeFile] ∧
      session = [Event.status Status.errorAccepting]) ∧
    (∃ session,
      sendFile unixPaths ⟨true, some 1, true, true, true, [ascii "x"], false, 0, []⟩
          (ascii "a") =
        [Event.status (Status.preparing (unixPaths.Base (ascii "a"))),
          Event.openFile (ascii "a"),
          Event.statFile, Event.listen PORT, Event.status Status.waitingForReceiver,
          Event.accept] ++ session ++ [Event.closeListener, Event.closeFile] ∧
      Event.connWrite (metaData (unixPaths.Base (ascii "a")) 1) ∈ session) := by
  constructor
  · obtain ⟨session, h1, _, _, h4, _, _⟩ := listener_closed_on_return unixPaths
      ⟨true, some 1, true, false, true, [ascii "x"], false, 0, []⟩ (ascii "a") 1 rfl rfl rfl
    exact ⟨session, h1, h4 rfl⟩
  · obtain ⟨session, h1, _, _, _, _, h6⟩ := listener_closed_on_return unixPaths
      ⟨true, some 1, true, true, true, [ascii "x"], false, 0, []⟩ (ascii "a") 1 rfl rfl rfl
    exact ⟨session, h1, h6 rfl rfl⟩

/-! ## Destination path (C9) -/

theorem StackOk_nil (rooted : Bool) : StackOk rooted [] :=
  ⟨by simp, by simp, trivial⟩

theorem StackOk_tail (rooted : Bool) (c : Bytes) (st : List Bytes)
    (h : StackOk rooted (c :: st)) : StackOk rooted st :=
  ⟨fun x hx => h.1 x (by simp [hx]), fun hr hm => h.2.1 hr (by simp [hm]), h.2.2.2⟩

theorem StackOk_suffix (rooted : Bool) (a b : List Bytes) (h : StackOk rooted (a ++ b)) :
    StackOk rooted b := by
  induction a with
  | nil => exact h
  | cons c a ih => exact ih (StackOk_tail rooted c (a ++ b) h)

theorem cleanStep_ok (rooted : Bool) (st : List Bytes) (c : Bytes)
    (h : StackOk rooted st) (hc : SLASH ∉ c) : StackOk rooted (cleanStep rooted st c) := by
  unfold cleanStep
  by_cases h1 : c = [] ∨ c = [DOT]
  · rw [if_pos h1]
    exact h
  · rw [if_neg h1]
    have hne : c ≠ [] := fun e => h1 (Or.inl e)
    have hnd : c ≠ [DOT] := fun e => h1 (Or.inr e)
    by_cases h2 : c = [DOT, DOT]
    · rw [if_pos h2]
      cases st with
      | nil =>
        cases rooted
        · refine ⟨?_, by simp, ?_⟩
          · intro x hx
            simp only [Bool.false_eq_true, if_false, List.mem_singleton] at hx
            subst hx
            exact ⟨hne, hnd, hc⟩
          · exact ⟨fun _ => by simp, trivial⟩
        · exact StackOk_nil true
      | cons t rest =>
        by_cases h3 : t = [DOT, DOT]
        · subst h3
          simp only [if_true]
          cases rooted
          · simp only [Bool.false_eq_true, if_false]
            refine ⟨?_, by simp, ?_⟩
            · intro x hx
              rcases List.mem_cons.mp hx with hx1 | hx1
              · subst hx1
                exact ⟨hne, hnd, hc⟩
              · exact h.1 x hx1
            · refine ⟨fun _ x hx => ?_, h.2.2⟩
              rcases List.mem_cons.mp hx with hx1 | hx1
              · exact hx1
              · exact h.2.2.1 rfl x hx1
          · simp only [if_true]
            exact h
        · simp only [h3, if_false]
          exact StackOk_tail rooted t rest h
    · rw [if_neg h2]
      refine ⟨?_, ?_, ?_⟩
      · intro x hx
        rcases List.mem_cons.mp hx with hx1 | hx1
        · subst hx1
          exact ⟨hne, hnd, hc⟩
        · exact h.1 x hx1
      · intro hr hm
        rcases List.mem_cons.mp hm with hm1 | hm1
        · exact h2 hm1.symm
        · exact h.2.1 hr hm1
      · exact ⟨fun e => absurd e h2, h.2.2⟩

theorem foldl_cleanStep_ok (rooted : Bool) (l : List Bytes) (st : List Bytes)
    (h : StackOk rooted st) (hl : ∀ c ∈ l, SLASH ∉ c) :
    StackOk rooted (l.foldl (cleanStep rooted) st) := by
  induction l generalizing st with
  | nil => exact h
  | cons c l ih =>
    simp only [List.foldl_cons]
    exact ih _ (cleanStep_ok rooted st c h (hl c (by simp)))
      (fun x hx => hl x (by simp [hx]))

theorem cleanStack_ok (path : Bytes) : StackOk (isRooted path) (cleanStack path) :=
  foldl_cleanStep_ok _ _ _ (StackOk_nil _) (fun c hc => not_mem_of_mem_Split SLASH path c hc)

theorem cleanStep_push (rooted : Bool) (acc : List Bytes) (c : Bytes)
    (h : StackOk rooted (c :: acc)) : cleanStep rooted acc c = c :: acc := by
  have hc := h.1 c (by simp)
  have h1 : ¬ (c = [] ∨ c = [DOT]) := fun e => e.elim hc.1 hc.2.1
  unfold cleanStep
  rw [if_neg h1]
  by_cases h2 : c = [DOT, DOT]
  · rw [if_pos h2]
    have hr : rooted = false := by
      cases rooted
      · rfl
      · exact absurd (by simp [h2]) (h.2.1 rfl)
    cases acc with
    | nil => simp [hr]
    | cons t rest =>
      have ht : t = [DOT, DOT] := h.2.2.1 h2 t (by simp)
      simp [hr, ht]
  · rw [if_neg h2]

theorem foldl_cleanStep_replay (rooted : Bool) (l acc : List Bytes)
    (h : StackOk rooted (l.reverse ++ acc)) :
    l.foldl (cleanStep rooted) acc = l.reverse ++ acc := by
  induction l generalizing acc with
  | nil => rfl
  | cons c l ih =>
    have h2 : StackOk rooted (l.reverse ++ c :: acc) := by
      simpa using h
    simp only [List.foldl_cons]
    rw [cleanStep_push rooted acc c (StackOk_suffix rooted _ _ h2), ih _ h2]
    simp

theorem Split_strJoin (sep : UInt8) (l : List Bytes) (hne : l ≠ [])
    (hl : ∀ c ∈ l, sep ∉ c) : Split sep (strJoin sep l) = l := by
  induction l with
  | nil => exact absurd rfl hne
  | cons a rest ih =>
    cases rest with
    | nil => exact Split_of_not_mem sep a (hl a (by simp))
    | cons b rest =>
      simp only [strJoin]
      rw [Split_append_sep, Split_of_not_mem sep a (hl a (by simp)),
        ih (by simp) (fun c hc => hl c (by simp [hc]))]
      rfl

theorem strJoin_concat (sep : UInt8) (l : List Bytes) (a : Bytes) (hne : l ≠ []) :
    strJoin sep (l ++ [a]) = strJoin sep l ++ sep :: a := by
  induction l with
  | nil => exact absurd rfl hne
  | cons b rest ih =>
    cases rest with
    | nil => simp [strJoin]
    | cons c rest =>
      have h := ih (by simp)
      have e1 : strJoin sep ((b :: c :: rest) ++ [a]) =
          b ++ sep :: strJoin sep ((c :: rest) ++ [a]) := rfl
      have e2 : strJoin sep (b :: c :: rest) = b ++ sep :: strJoin sep (c :: rest) := rfl
      rw [e1, e2, h]
      simp

theorem strJoin_cons_eq (sep : UInt8) (a : Bytes) (rest : List Bytes) :
    ∃ t, strJoin sep (a :: rest) = a ++ t := by
  cases rest with
  | nil => exact ⟨[], by simp [strJoin]⟩
  | cons b rest => exact ⟨sep :: strJoin sep (b :: rest), by simp [strJoin]⟩

theorem strJoin_reverse_ne_nil (rooted : Bool) (st : List Bytes) (h : StackOk rooted st)
    (hne : st ≠ []) :
    strJoin SLASH st.reverse ≠ [] ∧ (strJoin SLASH st.reverse).head? ≠ some SLASH := by
  cases hr : st.reverse with
  | nil => exact absurd (List.reverse_eq_nil_iff.mp hr) hne
  | cons a rest =>
    have ha : a ∈ st := by
      have : a ∈ st.reverse := by simp [hr]
      simpa using this
    obtain ⟨hane, _, haslash⟩ := h.1 a ha
    obtain ⟨t, ht⟩ := strJoin_cons_eq SLASH a rest
    rw [ht]
    cases a with
    | nil => exact absurd rfl hane
    | cons x a =>
      refine ⟨by simp, ?_⟩
      simp only [List.cons_append, List.head?_cons, ne_eq, Option.some.injEq]
      intro hx
      exact haslash (by simp [hx])

theorem foldl_Split_strJoin (rooted : Bool) (st : List Bytes) (h : StackOk rooted st) :
    (Split SLASH (strJoin SLASH st.reverse)).foldl (cleanStep rooted) [] = st := by
  by_cases hne : st = []
  · subst hne
    simp [strJoin, Split, cleanStep]
  · have hrev : st.reverse ≠ [] := fun e => hne (List.reverse_eq_nil_iff.mp e)
    rw [Split_strJoin SLASH st.reverse hrev (fun c hc => (h.1 c (by simpa using hc)).2.2)]
    have h2 : StackOk rooted (st.reverse.reverse ++ []) := by simpa using h
    rw [foldl_cleanStep_replay rooted st.reverse [] h2]
    simp

theorem isRooted_renderPath (rooted : Bool) (st : List Bytes) (h : StackOk rooted st) :
    isRooted (renderPath rooted st) = rooted := by
  cases rooted with
  | true => simp [renderPath, isRooted]
  | false =>
    by_cases hne : st = []
    · subst hne
      simp only [renderPath, isRooted, strJoin, List.reverse_nil]
      decide
    · obtain ⟨h1, h2⟩ := strJoin_reverse_ne_nil false st h hne
      simp only [renderPath, isRooted, Bool.false_eq_true, if_false, if_neg h1]
      simpa using h2

theorem cleanStack_renderPath (rooted : Bool) (st : List Bytes) (h : StackOk rooted st) :
    cleanStack (renderPath rooted st) = st := by
  unfold cleanStack
  rw [isRooted_renderPath rooted st h]
  cases rooted with
  | true =>
    have hs : Split SLASH (renderPath true st) = [] :: Split SLASH (strJoin SLASH st.reverse) := by
      simp only [renderPath, if_true]
      rw [Split, if_pos rfl]
    rw [hs]
    simp only [List.foldl_cons]
    have h0 : cleanStep true [] [] = [] := by simp [cleanStep]
    rw [h0]
    exact foldl_Split_strJoin true st h
  | false =>
    by_cases hne : st = []
    · subst hne
      simp only [renderPath, strJoin, List.reverse_nil]
      decide
    · obtain ⟨h1, _⟩ := strJoin_reverse_ne_nil false st h hne
      have hs : renderPath false st = strJoin SLASH st.reverse := by
        simp only [renderPath, Bool.false_eq_true, if_false, if_neg h1]
      rw [hs]
      exact foldl_Split_strJoin false st h

theorem renderPath_ne_nil (rooted : Bool) (st : List Bytes) : renderPath rooted st ≠ [] := by
  unfold renderPath
  cases rooted with
  | true => simp
  | false =>
    by_cases hb : strJoin SLASH st.reverse = []
    · simp [hb]
    · simp [hb]

theorem renderPath_push (rooted : Bool) (st : List Bytes) (name : Bytes)
    (h : StackOk rooted st) (hne : st ≠ []) :
    renderPath rooted (name :: st) = renderPath rooted st ++ SLASH :: name := by
  have hrev : st.reverse ≠ [] := fun e => hne (List.reverse_eq_nil_iff.mp e)
  have hbody : strJoin SLASH (name :: st).reverse =
      strJoin SLASH st.reverse ++ SLASH :: name := by
    rw [List.reverse_cons]
    exact strJoin_concat SLASH st.reverse name hrev
  obtain ⟨h1, _⟩ := strJoin_reverse_ne_nil rooted st h hne
  unfold renderPath
  simp only [hbody]
  cases rooted with
  | true => simp
  | false => simp [h1]

theorem isRooted_append (d rest : Bytes) (hd : d ≠ []) :
    isRooted (d ++ rest) = isRooted d := by
  cases d with
  | nil => exact absurd rfl hd
  | cons x d => rfl

theorem cleanStep_plain (rooted : Bool) (st : List Bytes) (name : Bytes)
    (hne : name ≠ []) (hdot : name ≠ [DOT]) (hdd : name ≠ [DOT, DOT]) :
    cleanStep rooted st name = name :: st := by
  unfold cleanStep
  rw [if_neg (fun e => e.elim hne hdot), if_neg hdd]

theorem cleanStack_append_plain (path name : Bytes) (hpath : path ≠ [])
    (hne : name ≠ []) (hslash : SLASH ∉ name) (hdot : name ≠ [DOT])
    (hdd : name ≠ [DOT, DOT]) :
    cleanStack (path ++ SLASH :: name) = name :: cleanStack path := by
  unfold cleanStack
  rw [isRooted_append path _ hpath, Split_append_sep, Split_of_not_mem SLASH name hslash,
    List.foldl_append]
  simp only [List.foldl_cons, List.foldl_nil]
  exact cleanStep_plain _ _ name hne hdot hdd

theorem Join_Clean_plain (path name : Bytes) (hst : cleanStack path ≠ [])
    (hne : name ≠ []) (hslash : SLASH ∉ name) (hdot : name ≠ [DOT])
    (hdd : name ≠ [DOT, DOT]) :
    Join [Clean path, name] = Clean path ++ SLASH :: name := by
  have hok := cleanStack_ok path
  have hd : Clean path ≠ [] := renderPath_ne_nil _ _
  have hjoin : Join [Clean path, name] = Clean (Clean path ++ SLASH :: name) := by
    unfold Join
    simp [hd, strJoin]
  have hroot : isRooted (Clean path ++ SLASH :: name) = isRooted path := by
    rw [isRooted_append _ _ hd]
    exact isRooted_renderPath _ _ hok
  have hstack : cleanStack (Clean path ++ SLASH :: name) = name :: cleanStack path := by
    rw [cleanStack_append_plain _ name hd hne hslash hdot hdd]
    unfold Clean
    rw [cleanStack_renderPath _ _ hok]
  have hclean : ∀ q, Clean q = renderPath (isRooted q) (cleanStack q) := fun _ => rfl
  rw [hjoin, hclean (Clean path ++ SLASH :: name), hroot, hstack,
    renderPath_push _ _ name hok hst]
  rfl

theorem getDownloadsDir_eq_Clean (home : Option Bytes) :
    ∃ path, getDownloadsDir unixPaths home = Clean path ∧ cleanStack path ≠ [] := by
  cases home with
  | none => exact ⟨ascii "downloads", by decide, by decide⟩
  | some h =>
    by_cases hh : h = []
    · subst hh
      exact ⟨ascii "Downloads", by decide, by decide⟩
    · refine ⟨h ++ SLASH :: ascii "Downloads", ?_, ?_⟩
      · unfold getDownloadsDir unixPaths Join
        simp [hh, strJoin]
      · rw [cleanStack_append_plain h (ascii "Downloads") hh (by decide) (by decide)
          (by decide) (by decide)]
        simp

theorem Base_append_plain (dir name : Bytes) (hne : name ≠ []) (hslash : SLASH ∉ name) :
    Base (dir ++ SLASH :: name) = name := by
  have hrev : (dir ++ SLASH :: name).reverse = name.reverse ++ SLASH :: dir.reverse := by
    simp
  have hhead : ∃ x t, name.reverse = x :: t ∧ x ≠ SLASH := by
    cases hr : name.reverse with
    | nil => exact absurd (List.reverse_eq_nil_iff.mp hr) hne
    | cons x t =>
      refine ⟨x, t, rfl, ?_⟩
      intro hx
      have : x ∈ name.reverse := by simp [hr]
      exact hslash (by rw [← hx]; simpa using this)
  obtain ⟨x, t, hxt, hx⟩ := hhead
  have hdrop : (dir ++ SLASH :: name).reverse.dropWhile (fun b => b = SLASH) =
      (dir ++ SLASH :: name).reverse := by
    rw [hrev, hxt]
    simp [List.dropWhile, hx]
  have htake : ((dir ++ SLASH :: name).reverse.takeWhile (fun b => b ≠ SLASH)) =
      name.reverse := by
    rw [hrev, List.takeWhile_append_of_pos]
    · simp [List.takeWhile]
    · intro a ha
      have hmem : a ∈ name := by simpa using ha
      have hane : a ≠ SLASH := fun e => hslash (by rw [← e]; exact hmem)
      simpa using hane
  unfold Base
  rw [if_neg (by simp)]
  simp only [hdrop, List.reverse_reverse, htake]
  rw [if_neg hne]

theorem outputPath_unix_plain (home : Option Bytes) (fileName : Bytes)
    (hne : fileName ≠ []) (hslash : SLASH ∉ fileName) (hdot : fileName ≠ [DOT])
    (hdd : fileName ≠ [DOT, DOT]) :
    outputPath unixPaths home fileName =
      getDownloadsDir unixPaths home ++ SLASH :: fileName := by
  obtain ⟨path, hpath, hst⟩ := getDownloadsDir_eq_Clean home
  have hjoin : outputPath unixPaths home fileName =
      Join [getDownloadsDir unixPaths home, fileName] := rfl
  rw [hjoin, hpath]
  exact Join_Clean_plain path fileName hst hne hslash hdot hdd

/-- C9, as stated, fails, already on a Unix build: the well-formed metadata
line `../x|1` names the file `../x`; with the home directory `/home/u` the
downloads directory is `/home/u/Downloads`, and the path `receiveFile` creates
is `/home/u/x`, which is outside it and whose last element is `x`, not the
received name. -/
theorem outputPath_not_verbatim :
    Split PIPE (ascii "../x|1") = [ascii "../x", ascii "1"] ∧
    getDownloadsDir unixPaths (some (ascii "/home/u")) = ascii "/home/u/Downloads" ∧
    createdFiles (receiveFile unixPaths
      ⟨true, some (ascii "../x|1"), some (ascii "/home/u"), true, [ascii "z"], false, []⟩
      (ascii "h")) = [ascii "/home/u/x"] ∧
    ascii "/home/u/x" ≠ ascii "/home/u/Downloads" ++ SLASH :: ascii "../x" ∧
    unixPaths.Base (ascii "/home/u/x") ≠ ascii "../x" := by
  decide

/-- C9, amended. A well-formed metadata line, a name, the `|` and a size text,
is received, and the dial and `os.Create` succeed. On every platform the one
path `receiveFile` creates is `filepath.Join` of the downloads directory and
the received name, the downloads directory being `filepath.Join` of the home
directory and `Downloads`, or `downloads` when the home directory cannot be
resolved. On a Unix build, where `/` is the only separator, for a name that is
a single path element (not empty, without `/`, and neither `.` nor `..`), that
path is the downloads directory, a `/` and the name verbatim, so that the name
is the last element of the path. Other names go through the lexical cleaning
of `filepath.Join` and are not kept verbatim. -/
theorem outputPath_plain_name (env : RecvEnv) (ipAddress first fileName sizeText : Bytes)
    (hdial : env.dialOk = true) (hcreate : env.createOk = true)
    (hfirst : env.firstRead = some first)
    (hline : first = fileName ++ PIPE :: sizeText)
    (hpipe : PIPE ∉ fileName) (hpipe2 : PIPE ∉ sizeText)
    (hne : fileName ≠ []) (hslash : SLASH ∉ fileName) (hdot : fileName ≠ [DOT])
    (hdd : fileName ≠ [DOT, DOT]) :
    (∀ fp : PathPkg, createdFiles (receiveFile fp env ipAddress) =
      [fp.Join [getDownloadsDir fp env.home, fileName]]) ∧
    (∀ fp : PathPkg, getDownloadsDir fp env.home =
      (match env.home with
        | none => ascii "downloads"
        | some h => fp.Join [h, ascii "Downloads"])) ∧
    createdFiles (receiveFile unixPaths env ipAddress) =
      [getDownloadsDir unixPaths env.home ++ SLASH :: fileName] ∧
    unixPaths.Base (getDownloadsDir unixPaths env.home ++ SLASH :: fileName) = fileName := by
  have hsplit : Split PIPE first = [fileName, sizeText] := by
    rw [hline, Split_append_sep, Split_of_not_mem PIPE fileName hpipe,
      Split_of_not_mem PIPE sizeText hpipe2]
    rfl
  have hcreated : ∀ fp : PathPkg, createdFiles (receiveFile fp env ipAddress) =
      [outputPath fp env.home fileName] := by
    intro fp
    rw [receiveFile_of_two_parts fp env ipAddress first fileName sizeText hdial hfirst hsplit,
      createdFiles_append, createdFiles_append,
      createdFiles_recvOnMetadata fp env fileName sizeText hcreate]
    rfl
  refine ⟨hcreated, ?_, ?_, ?_⟩
  · intro fp
    cases env.home <;> rfl
  · rw [hcreated unixPaths, outputPath_unix_plain env.home fileName hne hslash hdot hdd]
  · exact Base_append_plain _ fileName hne hslash

/-- C9, amended, at the metadata line `report.pdf|3` and the home directory
`/home/u`. -/
theorem outputPath_plain_name_witness :
    createdFiles (receiveFile unixPaths
      ⟨true, some (ascii "report.pdf|3"), some (ascii "/home/u"), true, [], false, []⟩
      (ascii "h")) = [ascii "/home/u/Downloads/report.pdf"] ∧
    unixPaths.Base (ascii "/home/u/Downloads/report.pdf") = ascii "report.pdf" := by
  have h := outputPath_plain_name
    ⟨true, some (ascii "report.pdf|3"), some (ascii "/home/u"), true, [], false, []⟩
    (ascii "h") (ascii "report.pdf|3") (ascii "report.pdf") (ascii "3") rfl rfl rfl
    (by decide) (by decide) (by decide) (by decide) (by decide) (by decide) (by decide)
  exact ⟨h.2.2.1.trans (by decide), h.2.2.2.trans (by decide)⟩

end Swiftshare
